import Mathlib

/-!
Shallow embedding of `parse_timeline_by_day.py` (Google-timeline-parser).

The repository is a single Python file that re-partitions Google Timeline
"semantic segments" into a day-indexed view.  This file embeds its data
model and operations in Lean and proves the frozen claims about it.

Modelling conventions:
* JSON values are the inductive `JValue`; Python dicts are association
  lists with distinct keys (first binding wins on lookup, as in a dict).
* Fallible Python code returns `Except PyErr`; each Python exception kind
  is a `PyErr` constructor carrying the payload the exception value holds.
* Aware `datetime` objects are `PyDateTime`: a Gregorian calendar date,
  a time of day in microseconds, and a fixed UTC offset in microseconds
  (as produced by `datetime.fromisoformat`).  Naive datetimes (timestamp
  text with no offset) are outside the modelled input space.
* Python string comparison is code-point lexicographic; we model it with
  `charListLt` over `String.data` (the built-in `String` order is not
  kernel-reducible, so the model carries its own, equivalent, order).
-/

/-- A JSON value, as produced by `json.loads`. -/
inductive JValue where
  | null : JValue
  | bool (b : Bool) : JValue
  | num (q : ℚ) : JValue
  | str (s : String) : JValue
  | arr (items : List JValue) : JValue
  | obj (fields : List (String × JValue)) : JValue

/-- Python exception values raised by the modelled code. -/
inductive PyErr where
  | keyError (key : String) : PyErr
  | attributeError : PyErr
  | typeError : PyErr
  | indexError : PyErr
  | valueError (msg : String) : PyErr
deriving DecidableEq

/-- First binding of a key in a dict, as `dict.__getitem__` would find it. -/
def dictGet (fields : List (String × JValue)) (k : String) : Option JValue :=
  (fields.find? (fun p => p.1 == k)).map (fun p => p.2)

/-- `d.get(k, default)` on a value already known to be a dict. -/
def dictGetD (fields : List (String × JValue)) (k : String) (d : JValue) : JValue :=
  (dictGet fields k).getD d

/-- `k in d` on a value already known to be a dict. -/
def dictHasKey (fields : List (String × JValue)) (k : String) : Bool :=
  (dictGet fields k).isSome

/-- `d[k]` on a value already known to be a dict: `KeyError` when absent. -/
def dictGetItem (fields : List (String × JValue)) (k : String) : Except PyErr JValue :=
  match dictGet fields k with
  | some v => .ok v
  | none => .error (.keyError k)

/-- `v.get(k, default)` on an arbitrary value: `AttributeError` unless `v`
is a dict (only dicts have a `.get` method). -/
def jGet (v : JValue) (k : String) (d : JValue) : Except PyErr JValue :=
  match v with
  | .obj fields => .ok (dictGetD fields k d)
  | _ => .error .attributeError

/-- `len(v)`: defined for strings, lists and dicts; `TypeError` otherwise. -/
def pyLen (v : JValue) : Except PyErr ℕ :=
  match v with
  | .str s => .ok s.length
  | .arr items => .ok items.length
  | .obj fields => .ok fields.length
  | _ => .error .typeError

/-- Python truthiness of a value, as used by `if path:`. -/
def pyTruthy (v : JValue) : Bool :=
  match v with
  | .null => false
  | .bool b => b
  | .num q => q != 0
  | .str s => s != ""
  | .arr items => !items.isEmpty
  | .obj fields => !fields.isEmpty

/-- `v[i]` with Python index semantics (negative indices count from the
end).  Lists index into elements, strings into one-character strings,
dicts raise `KeyError` for an integer key, everything else `TypeError`. -/
def pyIndex (v : JValue) (i : ℤ) : Except PyErr JValue :=
  match v with
  | .arr items =>
      if 0 ≤ i ∧ i < items.length then .ok (items.getD i.toNat .null)
      else if 0 ≤ i + items.length ∧ i < 0 then .ok (items.getD (i + items.length).toNat .null)
      else .error .indexError
  | .str s =>
      if 0 ≤ i ∧ i < s.length then .ok (.str (String.mk [s.data.getD i.toNat ' ']))
      else if 0 ≤ i + s.length ∧ i < 0 then .ok (.str (String.mk [s.data.getD (i + s.length).toNat ' ']))
      else .error .indexError
  | .obj _ => .error (.keyError (toString i))
  | _ => .error .typeError

/-- `build_segment_details(segment, include_timeline_points)` from
`parse_timeline_by_day.py` lines 39-74, translated clause by clause.  The
segment argument is the (mapping-shaped) segment record; field accesses on
nested values go through `jGet`, which raises `AttributeError` when the
nested value is not a dict, exactly as `.get` does in Python. -/
def build_segment_details (segment : List (String × JValue))
    (include_timeline_points : Bool) : Except PyErr (List (String × JValue)) :=
  if dictHasKey segment "activity" then do
    let activity := dictGetD segment "activity" (.obj [])
    let top ← jGet activity "topCandidate" (.obj [])
    let activityType ← jGet top "type" .null
    let activityProbability ← jGet top "probability" .null
    let segmentProbability ← jGet activity "probability" .null
    let distanceMeters ← jGet activity "distanceMeters" .null
    let startObj ← jGet activity "start" (.obj [])
    let startPoint ← jGet startObj "latLng" .null
    let endObj ← jGet activity "end" (.obj [])
    let endPoint ← jGet endObj "latLng" .null
    pure [("segmentType", .str "activity"),
          ("activityType", activityType),
          ("activityProbability", activityProbability),
          ("segmentProbability", segmentProbability),
          ("distanceMeters", distanceMeters),
          ("startPoint", startPoint),
          ("endPoint", endPoint)]
  else if dictHasKey segment "visit" then do
    let visit := dictGetD segment "visit" (.obj [])
    let top ← jGet visit "topCandidate" (.obj [])
    let visitProbability ← jGet visit "probability" .null
    let placeId ← jGet top "placeId" .null
    let semanticType ← jGet top "semanticType" .null
    let placeLocationObj ← jGet top "placeLocation" (.obj [])
    let placeLocation ← jGet placeLocationObj "latLng" .null
    pure [("segmentType", .str "visit"),
          ("visitProbability", visitProbability),
          ("placeId", placeId),
          ("semanticType", semanticType),
          ("placeLocation", placeLocation)]
  else do
    let path := dictGetD segment "timelinePath" (.arr [])
    let pointCount ← pyLen path
    let pointFields ←
      if pyTruthy path then do
        let firstElem ← pyIndex path 0
        let firstPoint ← jGet firstElem "point" .null
        let lastElem ← pyIndex path (-1)
        let lastPoint ← jGet lastElem "point" .null
        pure [("firstPoint", firstPoint), ("lastPoint", lastPoint)]
      else
        pure []
    let pathFields :=
      if include_timeline_points then [("timelinePath", path)] else []
    pure ([("segmentType", .str "timelinePath"),
           ("pointCount", .num pointCount)] ++ pointFields ++ pathFields)

/-- `v` is a dict. -/
def isObj (v : JValue) : Bool :=
  match v with
  | .obj _ => true
  | _ => false

/-- A key of a dict, when present, holds a dict. -/
def optFieldIsObj (fields : List (String × JValue)) (k : String) : Bool :=
  match dictGet fields k with
  | none => true
  | some v => isObj v

/-- The nested values that `build_segment_details` calls `.get` on are all
dicts (when present), and a present `timelinePath` is a list of dicts.
This is the shape condition under which the summarizer cannot raise. -/
def segShapeOK (segment : List (String × JValue)) : Bool :=
  match dictGet segment "activity" with
  | some (.obj a) =>
      optFieldIsObj a "topCandidate" && optFieldIsObj a "start" && optFieldIsObj a "end"
  | some _ => false
  | none =>
    match dictGet segment "visit" with
    | some (.obj v) =>
        (match dictGet v "topCandidate" with
         | none => true
         | some (.obj t) => optFieldIsObj t "placeLocation"
         | some _ => false)
    | some _ => false
    | none =>
      match dictGet segment "timelinePath" with
      | none => true
      | some (.arr items) => items.all isObj
      | some _ => false

/-! ## Calendar and datetime model

`datetime.fromisoformat` yields aware datetimes whose `tzinfo` is a fixed
`timezone` offset, so a datetime is modelled as a Gregorian calendar date,
a time of day in microseconds, and a UTC offset in microseconds. -/

def usPerDay : ℤ := 86400000000

def usPerHour : ℤ := 3600000000

def usPerMinute : ℤ := 60000000

def usPerSecond : ℤ := 1000000

/-- Gregorian leap year rule (`calendar.isleap`). -/
def isLeap (y : ℤ) : Bool :=
  y % 4 == 0 && (y % 100 != 0 || y % 400 == 0)

/-- Number of days in month `m` of year `y`. -/
def daysInMonth (y m : ℤ) : ℤ :=
  if m == 2 then (if isLeap y then 29 else 28)
  else if m == 4 || m == 6 || m == 9 || m == 11 then 30
  else 31

/-- Days of year `y` that precede month `m`. -/
def daysBeforeMonth (y m : ℤ) : ℤ :=
  (if m == 1 then 0 else if m == 2 then 31 else if m == 3 then 59
   else if m == 4 then 90 else if m == 5 then 120 else if m == 6 then 151
   else if m == 7 then 181 else if m == 8 then 212 else if m == 9 then 243
   else if m == 10 then 273 else if m == 11 then 304 else 334)
  + (if 2 < m && isLeap y then 1 else 0)

/-- Days before January 1 of year `y`, counted from 0001-01-01. -/
def yearStartDays (y : ℤ) : ℤ :=
  365 * (y - 1) + (y - 1) / 4 - (y - 1) / 100 + (y - 1) / 400

/-- Day ordinal of a calendar date (0001-01-01 has ordinal 0), the
integer underlying `date.toordinal` arithmetic. -/
def dateOrdinal (y m d : ℤ) : ℤ :=
  yearStartDays y + daysBeforeMonth y m + (d - 1)

/-- An aware Python `datetime`: calendar date, time of day in
microseconds since local midnight, and fixed UTC offset in microseconds. -/
structure PyDateTime where
  year : ℤ
  month : ℤ
  day : ℤ
  tod : ℤ
  offset : ℤ
deriving DecidableEq

/-- Day ordinal of the datetime's own (wall-clock) calendar date. -/
def PyDateTime.dateOrd (t : PyDateTime) : ℤ :=
  dateOrdinal t.year t.month t.day

/-- The instant a datetime denotes, in microseconds on the UTC timeline;
aware datetimes compare and subtract by this value. -/
def PyDateTime.instant (t : PyDateTime) : ℤ :=
  t.dateOrd * usPerDay + t.tod - t.offset

/-- `date(y1,m1,d1) < date(y2,m2,d2)`: Python compares dates by their
calendar components, lexicographically. -/
def dateLtB (y1 m1 d1 y2 m2 d2 : ℤ) : Bool :=
  y1 < y2 || (y1 == y2 && (m1 < m2 || (m1 == m2 && d1 < d2)))

/-- The calendar date one day after `(y, m, d)`
(`date + timedelta(days=1)`). -/
def nextDay (y m d : ℤ) : ℤ × ℤ × ℤ :=
  if d < daysInMonth y m then (y, m, d + 1)
  else if m < 12 then (y, m + 1, 1)
  else (y + 1, 1, 1)

/-- `datetime.combine(current.date() + timedelta(days=1), time.min,
tzinfo=current.tzinfo)`: midnight of the day after `cur`'s date, carrying
`cur`'s offset. -/
def nextMidnight (cur : PyDateTime) : PyDateTime :=
  match nextDay cur.year cur.month cur.day with
  | (y, m, d) => ⟨y, m, d, 0, cur.offset⟩

/-- The `while current.date() < end.date()` loop of
`split_segment_by_day` (lines 26-36).  The loop advances the cursor's
date ordinal by exactly one per iteration, so running it with fuel
`(end.dateOrd - cur.dateOrd).toNat` reproduces the loop; on fuel 0 the
guard is necessarily false and only the final `yield current, end`
remains. -/
def splitGo (endDt : PyDateTime) : ℕ → PyDateTime → List (PyDateTime × PyDateTime)
  | 0, cur => [(cur, endDt)]
  | fuel + 1, cur =>
    if dateLtB cur.year cur.month cur.day endDt.year endDt.month endDt.day then
      (cur, nextMidnight cur) :: splitGo endDt fuel (nextMidnight cur)
    else [(cur, endDt)]

/-- A calendar date Python's `date` type can represent. -/
def ValidDate (y m d : ℤ) : Prop :=
  1 ≤ y ∧ y ≤ 9999 ∧ 1 ≤ m ∧ m ≤ 12 ∧ 1 ≤ d ∧ d ≤ daysInMonth y m

instance (y m d : ℤ) : Decidable (ValidDate y m d) := by
  unfold ValidDate; infer_instance

/-- A datetime Python's `datetime` type can represent: a valid date, a
time of day within the day, and a timezone offset strictly between
-24h and +24h. -/
def PyDateTime.Valid (t : PyDateTime) : Prop :=
  ValidDate t.year t.month t.day ∧ 0 ≤ t.tod ∧ t.tod < usPerDay ∧
    -usPerDay < t.offset ∧ t.offset < usPerDay

instance (t : PyDateTime) : Decidable t.Valid := by
  unfold PyDateTime.Valid; infer_instance

/-! ## Rendering (`isoformat`) -/

/-- The `w` decimal digits of `n`, zero padded (most significant first). -/
def padChars : ℕ → ℕ → List Char
  | 0, _ => []
  | w + 1, n => Nat.digitChar (n / 10 ^ w % 10) :: padChars w (n % 10 ^ w)

/-- `date.isoformat()`: `YYYY-MM-DD`, as characters. -/
def renderDateChars (y m d : ℤ) : List Char :=
  padChars 4 y.toNat ++ '-' :: (padChars 2 m.toNat ++ '-' :: padChars 2 d.toNat)

/-- `date.isoformat()`: `YYYY-MM-DD`. -/
def renderDate (y m d : ℤ) : String :=
  String.mk (renderDateChars y m d)

/-- Time-of-day part of `datetime.isoformat()`: `HH:MM:SS`, with
`.ffffff` appended exactly when the microsecond component is nonzero. -/
def renderTimeChars (tod : ℤ) : List Char :=
  padChars 2 (tod / usPerHour).toNat
    ++ ':' :: (padChars 2 (tod / usPerMinute % 60).toNat
    ++ ':' :: (padChars 2 (tod / usPerSecond % 60).toNat
    ++ (if tod % usPerSecond == 0 then []
        else '.' :: padChars 6 (tod % usPerSecond).toNat)))

/-- Offset part of `datetime.isoformat()` for an aware datetime:
`±HH:MM`, extended with `:SS` and `.ffffff` only when those components
of the offset are nonzero. -/
def renderOffsetChars (off : ℤ) : List Char :=
  (if off < 0 then '-' else '+')
    :: (padChars 2 (|off| / usPerHour).toNat
    ++ ':' :: (padChars 2 (|off| / usPerMinute % 60).toNat
    ++ (if |off| % usPerMinute == 0 then []
        else ':' :: (padChars 2 (|off| / usPerSecond % 60).toNat
          ++ (if |off| % usPerSecond == 0 then []
              else '.' :: padChars 6 (|off| % usPerSecond).toNat)))))

/-- `datetime.isoformat()` of an aware datetime (default separator `T`). -/
def isoformat (t : PyDateTime) : String :=
  String.mk (renderDateChars t.year t.month t.day
    ++ 'T' :: (renderTimeChars t.tod ++ renderOffsetChars t.offset))

/-- `slice_start.date().isoformat()`, the day-bucket key (line 90). -/
def dayKey (t : PyDateTime) : String :=
  renderDate t.year t.month t.day

/-! ## Splitting (`split_segment_by_day`, lines 19-36) -/

/-- `split_segment_by_day(start, end)`.  Aware datetimes compare by
instant, so the `end < start` and `end == start` guards compare
`instant`s; the loop is `splitGo` run with its exact iteration count. -/
def split_segment_by_day (startDt endDt : PyDateTime) :
    Except PyErr (List (PyDateTime × PyDateTime)) :=
  if endDt.instant < startDt.instant then
    .error (.valueError ("Segment end is before start: " ++ isoformat startDt
      ++ " -> " ++ isoformat endDt))
  else if endDt.instant == startDt.instant then
    .ok [(startDt, endDt)]
  else
    .ok (splitGo endDt (endDt.dateOrd - startDt.dateOrd).toNat startDt)

/-! ## Timestamp parsing (`parse_iso8601`, lines 13-16)

`datetime.fromisoformat` is standard-library code; it is modelled on its
documented core (the inverse of `isoformat`) for the canonical extended
format `YYYY-MM-DD<sep>HH:MM:SS[.ffffff]±HH:MM`: fixed-width zero-padded
fields, any single separator character, optional 6-digit fraction, and a
mandatory `±HH:MM` offset (naive timestamps are outside the model).  All
field-range validations fromisoformat performs are modelled; any failure
is the `ValueError` the claims call `FormatError`. -/

/-- Value of a decimal digit character. -/
def digitVal (c : Char) : Option ℕ :=
  if 48 ≤ c.toNat && c.toNat ≤ 57 then some (c.toNat - 48) else none

/-- Read exactly two digits. -/
def readTwoDigits : List Char → Option (ℕ × List Char)
  | c1 :: c2 :: rest =>
    match digitVal c1, digitVal c2 with
    | some a, some b => some (10 * a + b, rest)
    | _, _ => none
  | _ => none

/-- Read exactly four digits. -/
def readFourDigits (cs : List Char) : Option (ℕ × List Char) :=
  match readTwoDigits cs with
  | some (hi, rest) =>
    match readTwoDigits rest with
    | some (lo, rest2) => some (100 * hi + lo, rest2)
    | none => none
  | none => none

/-- Read exactly six digits. -/
def readSixDigits (cs : List Char) : Option (ℕ × List Char) :=
  match readFourDigits cs with
  | some (hi, rest) =>
    match readTwoDigits rest with
    | some (lo, rest2) => some (100 * hi + lo, rest2)
    | none => none
  | none => none

/-- Expect a specific character. -/
def expectChar (c : Char) : List Char → Option (List Char)
  | c' :: rest => if c' == c then some rest else none
  | [] => none

/-- Optional `.ffffff` fraction (microseconds). -/
def parseFraction : List Char → Option (ℕ × List Char)
  | '.' :: rest =>
    match readSixDigits rest with
    | some (us, rest2) => some (us, rest2)
    | none => none
  | cs => some (0, cs)

/-- Trailing `±HH:MM` offset; must consume the rest of the input. -/
def parseOffsetTail : List Char → Option ℤ
  | c :: rest =>
    if c == '+' || c == '-' then
      match readTwoDigits rest with
      | some (oh, rest2) =>
        match expectChar ':' rest2 with
        | some rest3 =>
          match readTwoDigits rest3 with
          | some (om, []) =>
            if oh ≤ 23 && om ≤ 59 then
              some ((if c == '-' then -1 else 1) * ((oh : ℤ) * usPerHour + (om : ℤ) * usPerMinute))
            else none
          | _ => none
        | none => none
      | none => none
    else none
  | [] => none

/-- `datetime.fromisoformat` on the canonical aware format. -/
def fromisoformatChars (cs : List Char) : Option PyDateTime :=
  match readFourDigits cs with
  | none => none
  | some (y, r1) =>
    match expectChar '-' r1 with
    | none => none
    | some r2 =>
      match readTwoDigits r2 with
      | none => none
      | some (mo, r3) =>
        match expectChar '-' r3 with
        | none => none
        | some r4 =>
          match readTwoDigits r4 with
          | none => none
          | some (d, r5) =>
            match r5 with
            | [] => none
            | _sep :: r6 =>
              match readTwoDigits r6 with
              | none => none
              | some (h, r7) =>
                match expectChar ':' r7 with
                | none => none
                | some r8 =>
                  match readTwoDigits r8 with
                  | none => none
                  | some (mi, r9) =>
                    match expectChar ':' r9 with
                    | none => none
                    | some r10 =>
                      match readTwoDigits r10 with
                      | none => none
                      | some (s, r11) =>
                        match parseFraction r11 with
                        | none => none
                        | some (us, r12) =>
                          match parseOffsetTail r12 with
                          | none => none
                          | some off =>
                            if ValidDate y mo d ∧ h ≤ 23 ∧ mi ≤ 59 ∧ s ≤ 59 then
                              some ⟨y, mo, d,
                                (h : ℤ) * usPerHour + (mi : ℤ) * usPerMinute
                                  + (s : ℤ) * usPerSecond + (us : ℤ), off⟩
                            else none

/-- Does the character list end in `Z`? (`value.endswith("Z")`). -/
def endsWithZ (cs : List Char) : Bool :=
  match cs.getLast? with
  | some c => c == 'Z'
  | none => false

/-- `parse_iso8601(value)` (lines 13-16): rewrite a trailing `Z` to
`+00:00`, then `fromisoformat`. -/
def parse_iso8601 (value : String) : Except PyErr PyDateTime :=
  let cs := if endsWithZ value.data
            then value.data.dropLast ++ ['+', '0', '0', ':', '0', '0']
            else value.data
  match fromisoformatChars cs with
  | some t => .ok t
  | none => .error (.valueError ("Invalid isoformat string: " ++ String.mk cs))

/-! ## Aggregation (`parse_by_day`, lines 77-106) -/

/-- `round` to the nearest integer, ties to even (Python's `round`). -/
def roundHalfToEven (x : ℚ) : ℤ :=
  if x - ⌊x⌋ < 1 / 2 then ⌊x⌋
  else if (1 : ℚ) / 2 < x - ⌊x⌋ then ⌊x⌋ + 1
  else if ⌊x⌋ % 2 = 0 then ⌊x⌋ else ⌊x⌋ + 1

/-- `round(x, 2)`. -/
def pyRound2 (x : ℚ) : ℚ :=
  (roundHalfToEven (x * 100) : ℚ) / 100

/-- `round((slice_end - slice_start).total_seconds() / 60.0, 2)`
(line 89): the slice length in minutes, rounded to 2 decimal places. -/
def durationMinutes (p : PyDateTime × PyDateTime) : ℚ :=
  pyRound2 (((p.2.instant - p.1.instant : ℤ) : ℚ) / 1000000 / 60)

/-- An output slice: the dict appended at lines 91-101. -/
abbrev Slice := List (String × JValue)

/-- `segment["startTime"]` / `segment["endTime"]` feed `parse_iso8601`,
whose `value.endswith` raises `AttributeError` on a non-string. -/
def asPyStr (v : JValue) : Except PyErr String :=
  match v with
  | .str s => .ok s
  | _ => .error .attributeError

/-- The slice dict built for one yielded sub-interval (lines 91-101).
The `**details` splat appends the summary fields; none of their keys
collide with the six fixed keys, so dict-merge is list append. -/
def makeSlice (index : ℕ) (p : PyDateTime × PyDateTime)
    (origStart origEnd : JValue) (details : List (String × JValue)) : Slice :=
  [("segmentIndex", .num (index : ℚ)),
   ("startTime", .str (isoformat p.1)),
   ("endTime", .str (isoformat p.2)),
   ("durationMinutes", .num (durationMinutes p)),
   ("originalStartTime", origStart),
   ("originalEndTime", origEnd)] ++ details

/-- The per-segment body of the `for index, segment in enumerate(...)`
loop (lines 83-101), producing the `(day_key, slice)` pairs the segment
appends, in order.  Sub-expressions are sequenced in the evaluation
order of the Python source, so the first raised exception matches. -/
def processSegment (index : ℕ) (segment : List (String × JValue))
    (inc : Bool) : Except PyErr (List (String × Slice)) := do
  let startJ ← dictGetItem segment "startTime"
  let startStr ← asPyStr startJ
  let startDt ← parse_iso8601 startStr
  let endJ ← dictGetItem segment "endTime"
  let endStr ← asPyStr endJ
  let endDt ← parse_iso8601 endStr
  let details ← build_segment_details segment inc
  let pairs ← split_segment_by_day startDt endDt
  pure (pairs.map (fun p => (dayKey p.1, makeSlice index p startJ endJ details)))

/-- `days[day_key].append(slice)` on a `defaultdict(list)`: append to the
existing bucket, or create a new bucket at the end (dicts preserve
insertion order). -/
def addSlice (days : List (String × List Slice)) (k : String) (s : Slice) :
    List (String × List Slice) :=
  match days with
  | [] => [(k, [s])]
  | (k', l) :: rest =>
    if k' == k then (k', l ++ [s]) :: rest else (k', l) :: addSlice rest k s

/-- Append a segment's `(day_key, slice)` pairs in order. -/
def addPairs (days : List (String × List Slice)) (pairs : List (String × Slice)) :
    List (String × List Slice) :=
  pairs.foldl (fun d p => addSlice d p.1 p.2) days

/-- The main loop of `parse_by_day` over index-tagged segments. -/
def buildDays (inc : Bool) :
    List (ℕ × List (String × JValue)) → List (String × List Slice) →
      Except PyErr (List (String × List Slice))
  | [], days => .ok days
  | (i, seg) :: rest, days => do
    let pairs ← processSegment i seg inc
    buildDays inc rest (addPairs days pairs)

/-- Code-point lexicographic comparison of character lists: Python's `<`
on strings. -/
def charListLt : List Char → List Char → Bool
  | [], [] => false
  | [], _ :: _ => true
  | _ :: _, [] => false
  | a :: as, b :: bs =>
    if a.toNat < b.toNat then true
    else if b.toNat < a.toNat then false
    else charListLt as bs

/-- Python's `<=` on strings (total order, so `a <= b ↔ ¬ b < a`). -/
def charListLe (a b : List Char) : Bool :=
  !charListLt b a

/-- Python string `<=`, the comparison `list.sort` and `sorted` use on
string keys. -/
def strLe (a b : String) : Prop :=
  charListLe a.data b.data = true

instance : DecidableRel strLe := fun _ _ =>
  inferInstanceAs (Decidable (_ = true))

/-- `item["startTime"]`, the sort key of line 104.  Constructed slices
always carry a string `"startTime"`; the default is never exercised. -/
def sliceKey (s : Slice) : String :=
  match dictGet s "startTime" with
  | some (.str v) => v
  | _ => ""

/-- Slice comparison by start-time text. -/
def sliceLe (a b : Slice) : Prop :=
  strLe (sliceKey a) (sliceKey b)

instance : DecidableRel sliceLe := fun _ _ =>
  inferInstanceAs (Decidable (_ = true))

/-- `days[day]` once `day` is known to be a key (the comprehension of
line 106); the `[]` default is never exercised. -/
def daysLookup (days : List (String × List Slice)) (k : String) : List Slice :=
  match days.find? (fun p => p.1 == k) with
  | some p => p.2
  | none => []

/-- Lines 103-106: sort each bucket by start-time text (Python's sort is
stable; so is insertion sort, so ties keep insertion order exactly as in
the source), then rebuild the mapping over lexicographically sorted keys. -/
def finalizeDays (days : List (String × List Slice)) : List (String × List Slice) :=
  let sortedBuckets := days.map (fun p => (p.1, List.insertionSort sliceLe p.2))
  (List.insertionSort strLe (sortedBuckets.map (fun p => p.1))).map
    (fun k => (k, daysLookup sortedBuckets k))

/-- `parse_by_day` over index-tagged segments: the claims about
order-independence quantify over the tagging, so the enumeration is a
parameter here. -/
def parseWithIndices (isegs : List (ℕ × List (String × JValue))) (inc : Bool) :
    Except PyErr (List (String × List Slice)) :=
  (buildDays inc isegs []).map finalizeDays

/-- `parse_by_day(segments, include_timeline_points)` (lines 77-106):
segments are processed with `enumerate`'s index tagging. -/
def parse_by_day (segments : List (List (String × JValue))) (inc : Bool) :
    Except PyErr (List (String × List Slice)) :=
  parseWithIndices segments.enum inc

/-- The output document of `main` (lines 153-158), minus file I/O. -/
structure OutputDoc where
  sourceFile : String
  dayCount : ℕ
  segmentCount : ℕ
  days : List (String × List Slice)

/-- Lines 149-158 of `main`: run `parse_by_day` and assemble the output
document; `dayCount` is `len(grouped)`, `segmentCount` is `len(segments)`. -/
def mainOutput (sourceFile : String) (segments : List (List (String × JValue)))
    (inc : Bool) : Except PyErr OutputDoc :=
  (parse_by_day segments inc).map
    (fun grouped => ⟨sourceFile, grouped.length, segments.length, grouped⟩)

/-! ## Derived notions used to state the claims -/

/-- Wall-clock microseconds of the instant of `t`, observed at fixed UTC
offset `off`. -/
def wallClockAt (off : ℤ) (t : PyDateTime) : ℤ :=
  t.instant + off

/-- The interval `(p.1, p.2)` is forward and lies within the single
calendar day of its start cursor, as reckoned at the cursor's offset:
its end, observed at the cursor's offset, is no later than the midnight
that ends the cursor's calendar day. -/
def withinOneDay (p : PyDateTime × PyDateTime) : Prop :=
  p.1.instant ≤ p.2.instant ∧
    wallClockAt p.1.offset p.2 ≤ (p.1.dateOrd + 1) * usPerDay

/-- Strict lexicographic order on calendar dates (Python `date` `<`). -/
def tripleLt (a b : ℤ × ℤ × ℤ) : Prop :=
  a.1 < b.1 ∨ (a.1 = b.1 ∧ (a.2.1 < b.2.1 ∨ (a.2.1 = b.2.1 ∧ a.2.2 < b.2.2)))

/-- The calendar date of a datetime. -/
def PyDateTime.dateTriple (t : PyDateTime) : ℤ × ℤ × ℤ :=
  (t.year, t.month, t.day)

instance (p : PyDateTime × PyDateTime) : Decidable (withinOneDay p) := by
  unfold withinOneDay; infer_instance

instance (a b : ℤ × ℤ × ℤ) : Decidable (tripleLt a b) := by
  unfold tripleLt; infer_instance

/-- `v.get(k, d)` as a total function on values already known to be
dicts (used to state what the summarizer computes on shape-correct
input). -/
def objGetD (v : JValue) (k : String) (d : JValue) : JValue :=
  match v with
  | .obj fields => dictGetD fields k d
  | _ => d

/-- The element list of a value already known to be a list. -/
def arrItems (v : JValue) : List JValue :=
  match v with
  | .arr items => items
  | _ => []

/-- What the activity branch of `build_segment_details` computes on a
shape-correct payload `a`: every summary field is the defaulted lookup
chain of the source's `.get` calls, so a missing nested field gives the
null default. -/
def activitySummary (a : List (String × JValue)) : List (String × JValue) :=
  let top := dictGetD a "topCandidate" (.obj [])
  [("segmentType", .str "activity"),
   ("activityType", objGetD top "type" .null),
   ("activityProbability", objGetD top "probability" .null),
   ("segmentProbability", dictGetD a "probability" .null),
   ("distanceMeters", dictGetD a "distanceMeters" .null),
   ("startPoint", objGetD (dictGetD a "start" (.obj [])) "latLng" .null),
   ("endPoint", objGetD (dictGetD a "end" (.obj [])) "latLng" .null)]

/-- What the visit branch of `build_segment_details` computes on a
shape-correct payload `v`: every summary field is the defaulted lookup
chain of the source's `.get` calls, so a missing nested field gives the
null default. -/
def visitSummary (v : List (String × JValue)) : List (String × JValue) :=
  let top := dictGetD v "topCandidate" (.obj [])
  [("segmentType", .str "visit"),
   ("visitProbability", dictGetD v "probability" .null),
   ("placeId", objGetD top "placeId" .null),
   ("semanticType", objGetD top "semanticType" .null),
   ("placeLocation", objGetD (objGetD top "placeLocation" (.obj [])) "latLng" .null)]

/-- What the timelinePath fallback branch of `build_segment_details`
computes on a shape-correct segment: point count of the defaulted path,
first/last point as defaulted lookups when the path is non-empty (absent
when it is empty or missing), and the verbatim point list exactly when the
caller opted in. -/
def pathSummary (segment : List (String × JValue)) (inc : Bool) :
    List (String × JValue) :=
  let path := arrItems (dictGetD segment "timelinePath" (.arr []))
  [("segmentType", .str "timelinePath"),
   ("pointCount", .num (path.length : ℚ))]
    ++ (match path with
        | [] => []
        | x :: xs =>
            [("firstPoint", objGetD x "point" .null),
             ("lastPoint", objGetD ((x :: xs).getD xs.length .null) "point" .null)])
    ++ (if inc then [("timelinePath", .arr path)] else [])

/-- The `(day_key, slice)` pairs a processed segment contributes (empty
for a failing segment); `buildDays` on an all-ok prefix accumulates
exactly these. -/
def segPairs (inc : Bool) (x : ℕ × List (String × JValue)) : List (String × Slice) :=
  match processSegment x.1 x.2 inc with
  | .ok pairs => pairs
  | .error _ => []

/-- A segment (with its index) processes without raising. -/
def procOk (inc : Bool) (x : ℕ × List (String × JValue)) : Prop :=
  ∃ pairs, processSegment x.1 x.2 inc = .ok pairs

/-- The `startTime` side of a segment is retrievable and parseable (the
code only reaches the `endTime` lookup when this holds). -/
def startSideOK (seg : List (String × JValue)) : Prop :=
  ∃ v s t, dictGet seg "startTime" = some v ∧ asPyStr v = .ok s ∧
    parse_iso8601 s = .ok t

/-! ## Basic inversion lemmas -/

theorem exceptBind_ok {α β : Type} {x : Except PyErr α} {f : α → Except PyErr β} {b : β} :
    (x >>= f) = .ok b ↔ ∃ a, x = .ok a ∧ f a = .ok b := by
  cases x <;> simp [Bind.bind, Except.bind]

theorem exceptPure_ok {α : Type} {a b : α} : (pure a : Except PyErr α) = .ok b ↔ a = b := by
  simp [pure, Except.pure]

theorem jGet_obj_ok (fields : List (String × JValue)) (k : String) (d : JValue) :
    jGet (.obj fields) k d = .ok (dictGetD fields k d) := rfl

theorem optFieldIsObj_cases {fields : List (String × JValue)} {k : String}
    (h : optFieldIsObj fields k = true) :
    ∃ t, dictGetD fields k (.obj []) = .obj t := by
  unfold optFieldIsObj at h
  unfold dictGetD
  cases hg : dictGet fields k with
  | none => exact ⟨[], rfl⟩
  | some v =>
    rw [hg] at h
    cases v <;> simp [isObj] at h
    exact ⟨_, rfl⟩

theorem build_activity_branch (segment : List (String × JValue)) (inc : Bool)
    (a t st en : List (String × JValue))
    (hact : dictGet segment "activity" = some (.obj a))
    (ht : dictGetD a "topCandidate" (.obj []) = .obj t)
    (hstv : dictGetD a "start" (.obj []) = .obj st)
    (henv : dictGetD a "end" (.obj []) = .obj en) :
    build_segment_details segment inc = .ok
      [("segmentType", .str "activity"),
       ("activityType", dictGetD t "type" .null),
       ("activityProbability", dictGetD t "probability" .null),
       ("segmentProbability", dictGetD a "probability" .null),
       ("distanceMeters", dictGetD a "distanceMeters" .null),
       ("startPoint", dictGetD st "latLng" .null),
       ("endPoint", dictGetD en "latLng" .null)] := by
  have hA : dictGetD segment "activity" (JValue.obj []) = .obj a := by
    simp [dictGetD, hact]
  simp [build_segment_details, dictHasKey, hact, hA, ht, hstv, henv, jGet,
    Bind.bind, Except.bind, pure, Except.pure]

theorem build_visit_branch (segment : List (String × JValue)) (inc : Bool)
    (v t pl : List (String × JValue))
    (hact : dictGet segment "activity" = none)
    (hvis : dictGet segment "visit" = some (.obj v))
    (ht : dictGetD v "topCandidate" (.obj []) = .obj t)
    (hpl : dictGetD t "placeLocation" (.obj []) = .obj pl) :
    build_segment_details segment inc = .ok
      [("segmentType", .str "visit"),
       ("visitProbability", dictGetD v "probability" .null),
       ("placeId", dictGetD t "placeId" .null),
       ("semanticType", dictGetD t "semanticType" .null),
       ("placeLocation", dictGetD pl "latLng" .null)] := by
  have hV : dictGetD segment "visit" (JValue.obj []) = .obj v := by
    simp [dictGetD, hvis]
  simp [build_segment_details, dictHasKey, hact, hvis, hV, ht, hpl, jGet,
    Bind.bind, Except.bind, pure, Except.pure]


theorem build_path_empty (segment : List (String × JValue)) (inc : Bool)
    (hact : dictGet segment "activity" = none)
    (hvis : dictGet segment "visit" = none)
    (hpath : dictGetD segment "timelinePath" (.arr []) = .arr []) :
    build_segment_details segment inc = .ok
      ([("segmentType", .str "timelinePath"), ("pointCount", .num 0)]
        ++ (if inc then [("timelinePath", .arr [])] else [])) := by
  simp [build_segment_details, dictHasKey, hact, hvis, hpath, pyLen, pyTruthy,
    Bind.bind, Except.bind, pure, Except.pure]

theorem pyIndex_zero (x : JValue) (xs : List JValue) :
    pyIndex (.arr (x :: xs)) 0 = .ok x := by
  simp [pyIndex]

theorem pyIndex_last (x : JValue) (xs : List JValue) :
    pyIndex (.arr (x :: xs)) (-1) = .ok ((x :: xs).getD xs.length .null) := by
  have h1 : ¬ ((0:ℤ) ≤ -1 ∧ (-1:ℤ) < ((x :: xs).length : ℤ)) := by norm_num
  have h2 : (0:ℤ) ≤ -1 + ((x :: xs).length : ℤ) ∧ (-1:ℤ) < 0 := by
    simp only [List.length_cons]
    omega
  simp only [pyIndex]
  rw [if_neg h1, if_pos h2]
  congr 1
  congr 1
  simp only [List.length_cons]
  omega

theorem build_path_cons (segment : List (String × JValue)) (inc : Bool)
    (xs : List JValue) (ox ol : List (String × JValue))
    (hact : dictGet segment "activity" = none)
    (hvis : dictGet segment "visit" = none)
    (hpath : dictGetD segment "timelinePath" (.arr []) = .arr (JValue.obj ox :: xs))
    (hl : (JValue.obj ox :: xs).getD xs.length .null = .obj ol) :
    build_segment_details segment inc = .ok
      ([("segmentType", .str "timelinePath"),
        ("pointCount", .num ((JValue.obj ox :: xs).length : ℚ)),
        ("firstPoint", dictGetD ox "point" .null),
        ("lastPoint", dictGetD ol "point" .null)]
        ++ (if inc then [("timelinePath", .arr (JValue.obj ox :: xs))] else [])) := by
  have hl2 : (JValue.obj ox :: xs)[xs.length] = .obj ol := by
    rw [← List.getD_eq_getElem (JValue.obj ox :: xs) JValue.null (by simp)]
    exact hl
  simp [build_segment_details, dictHasKey, hact, hvis, hpath, pyLen, pyTruthy,
    pyIndex_zero, pyIndex_last, hl, hl2, jGet, Bind.bind, Except.bind, pure, Except.pure]

theorem dictGet_append (l1 l2 : List (String × JValue)) (k : String) :
    dictGet (l1 ++ l2) k = (dictGet l1 k).or (dictGet l2 k) := by
  cases h : List.find? (fun p => p.1 == k) l1 <;>
    simp [dictGet, List.find?_append, h, Option.or]

theorem build_details_shape_ok (segment : List (String × JValue)) (inc : Bool)
    (h : segShapeOK segment = true) :
    ∃ d, build_segment_details segment inc = .ok d ∧
      (∀ a, dictGet segment "activity" = some (.obj a) → d = activitySummary a) ∧
      (dictGet segment "activity" = none →
        ∀ v, dictGet segment "visit" = some (.obj v) → d = visitSummary v) ∧
      (dictGet segment "activity" = none → dictGet segment "visit" = none →
        d = pathSummary segment inc) := by
  unfold segShapeOK at h
  cases hact : dictGet segment "activity" with
  | some v =>
    rw [hact] at h
    cases v with
    | obj a =>
      simp only [Bool.and_eq_true] at h
      obtain ⟨⟨htop, hst⟩, hen⟩ := h
      obtain ⟨t, ht⟩ := optFieldIsObj_cases htop
      obtain ⟨st, hstv⟩ := optFieldIsObj_cases hst
      obtain ⟨en, henv⟩ := optFieldIsObj_cases hen
      refine ⟨_, build_activity_branch segment inc a t st en hact ht hstv henv,
        ?_, ?_, ?_⟩
      · intro a' ha'
        have haa : a' = a := by
          injection ha' with h1
          injection h1 with h2
          exact h2.symm
        subst haa
        simp [activitySummary, ht, hstv, henv, objGetD]
      · intro hnone
        simp [hact] at hnone
      · intro hnone _
        simp [hact] at hnone
    | null => simp at h
    | bool b => simp at h
    | num q => simp at h
    | str s => simp at h
    | arr l => simp at h
  | none =>
    simp only [hact] at h
    cases hvis : dictGet segment "visit" with
    | some v =>
      simp only [hvis] at h
      cases v with
      | obj vfs =>
        cases htc : dictGet vfs "topCandidate" with
        | none =>
          have ht : dictGetD vfs "topCandidate" (JValue.obj []) = .obj [] := by
            simp [dictGetD, htc]
          refine ⟨_, build_visit_branch segment inc vfs [] [] hact hvis ht rfl,
            ?_, ?_, ?_⟩
          · intro a' ha'
            simp [hact] at ha'
          · intro _ v' hv'
            have hvv : v' = vfs := by
              injection hv' with h1
              injection h1 with h2
              exact h2.symm
            subst hvv
            simp only [visitSummary]
            rw [ht]
            simp [objGetD, dictGetD, dictGet]
          · intro _ hnone
            simp [hvis] at hnone
        | some tv =>
          simp only [htc] at h
          cases tv with
          | obj t =>
            obtain ⟨pl, hpl⟩ := optFieldIsObj_cases h
            have ht : dictGetD vfs "topCandidate" (JValue.obj []) = .obj t := by
              simp [dictGetD, htc]
            refine ⟨_, build_visit_branch segment inc vfs t pl hact hvis ht hpl,
              ?_, ?_, ?_⟩
            · intro a' ha'
              simp [hact] at ha'
            · intro _ v' hv'
              have hvv : v' = vfs := by
                injection hv' with h1
                injection h1 with h2
                exact h2.symm
              subst hvv
              simp [visitSummary, ht, hpl, objGetD]
            · intro _ hnone
              simp [hvis] at hnone
          | null => simp at h
          | bool b => simp at h
          | num q => simp at h
          | str s => simp at h
          | arr l => simp at h
      | null => simp at h
      | bool b => simp at h
      | num q => simp at h
      | str s => simp at h
      | arr l => simp at h
    | none =>
      simp only [hvis] at h
      cases hterm : dictGet segment "timelinePath" with
      | none =>
        have hpath : dictGetD segment "timelinePath" (JValue.arr []) = .arr [] := by
          simp [dictGetD, hterm]
        refine ⟨_, build_path_empty segment inc hact hvis hpath, ?_, ?_, ?_⟩
        · intro a' ha'
          simp [hact] at ha'
        · intro _ v' hv'
          simp [hvis] at hv'
        · intro _ _
          simp [pathSummary, hpath, arrItems]
      | some pv =>
        simp only [hterm] at h
        cases pv with
        | arr items =>
          have hpath : dictGetD segment "timelinePath" (JValue.arr []) = .arr items := by
            simp [dictGetD, hterm]
          cases items with
          | nil =>
            refine ⟨_, build_path_empty segment inc hact hvis hpath, ?_, ?_, ?_⟩
            · intro a' ha'
              simp [hact] at ha'
            · intro _ v' hv'
              simp [hvis] at hv'
            · intro _ _
              simp [pathSummary, hpath, arrItems]
          | cons x xs =>
            have hx : isObj x = true := List.all_eq_true.mp h x (by simp)
            obtain ⟨ox, hox⟩ : ∃ o, x = .obj o := by
              cases x <;> simp [isObj] at hx
              exact ⟨_, rfl⟩
            subst hox
            have hmem : (JValue.obj ox :: xs).getD xs.length .null ∈ (JValue.obj ox :: xs) := by
              rw [List.getD_eq_getElem _ _ (by simp)]
              exact List.getElem_mem _
            have hobj : isObj ((JValue.obj ox :: xs).getD xs.length .null) = true :=
              List.all_eq_true.mp h _ hmem
            obtain ⟨ol, hol⟩ : ∃ o, (JValue.obj ox :: xs).getD xs.length .null = .obj o := by
              cases hv : (JValue.obj ox :: xs).getD xs.length JValue.null <;>
                rw [hv] at hobj <;> simp [isObj] at hobj
              exact ⟨_, rfl⟩
            refine ⟨_, build_path_cons segment inc xs ox ol hact hvis hpath hol, ?_, ?_, ?_⟩
            · intro a' ha'
              simp [hact] at ha'
            · intro _ v' hv'
              simp [hvis] at hv'
            · intro _ _
              have hol2 : (JValue.obj ox :: xs)[xs.length] = JValue.obj ol := by
                rw [← List.getD_eq_getElem (JValue.obj ox :: xs) JValue.null (by simp)]
                exact hol
              simp [pathSummary, hpath, arrItems, hol, hol2, objGetD]
        | null => simp at h
        | bool b => simp at h
        | num q => simp at h
        | str s => simp at h
        | obj o => simp at h

theorem variantSelection (segment : List (String × JValue)) (inc : Bool)
    (d : List (String × JValue))
    (h : build_segment_details segment inc = .ok d) :
    (dictHasKey segment "activity" = true →
      dictGet d "segmentType" = some (.str "activity")) ∧
    (dictHasKey segment "activity" = false → dictHasKey segment "visit" = true →
      dictGet d "segmentType" = some (.str "visit")) ∧
    (dictHasKey segment "activity" = false → dictHasKey segment "visit" = false →
      dictGet d "segmentType" = some (.str "timelinePath") ∧
      ((dictGet d "timelinePath").isSome = true ↔ inc = true) ∧
      (inc = true →
        dictGet d "timelinePath" = some (dictGetD segment "timelinePath" (.arr [])))) := by
  by_cases hact : dictHasKey segment "activity" = true
  · rw [build_segment_details, if_pos hact] at h
    simp only [exceptBind_ok, exceptPure_ok] at h
    rcases h with ⟨top, _, aty, _, apr, _, spr, _, dist, _, st, _, stl, _, en, _, enl, _, hd⟩
    subst hd
    refine ⟨fun _ => rfl, fun hf _ => absurd (hf ▸ hact) (by simp),
      fun hf _ => absurd (hf ▸ hact) (by simp)⟩
  · rw [build_segment_details, if_neg hact] at h
    by_cases hvis : dictHasKey segment "visit" = true
    · rw [if_pos hvis] at h
      simp only [exceptBind_ok, exceptPure_ok] at h
      rcases h with ⟨top, _, vp, _, pid, _, sem, _, plo, _, pll, _, hd⟩
      subst hd
      refine ⟨fun hT => absurd hT hact, fun _ _ => rfl,
        fun _ hf => absurd (hf ▸ hvis) (by simp)⟩
    · rw [if_neg hvis] at h
      simp only [exceptBind_ok] at h
      rcases h with ⟨pc, hpc, hrest⟩
      by_cases hpt : pyTruthy (dictGetD segment "timelinePath" (.arr [])) = true
      · rw [if_pos hpt] at hrest
        simp only [exceptBind_ok, exceptPure_ok] at hrest
        rcases hrest with ⟨e1, _, v1, _, e2, _, v2, _, y, hy, hd⟩
        subst hy
        subst hd
        refine ⟨fun hT => absurd hT hact, fun _ hT => absurd hT hvis,
          fun _ _ => ⟨rfl, ?_, ?_⟩⟩
        · cases inc <;> simp [dictGet]
        · intro hT
          subst hT
          rfl
      · rw [if_neg hpt] at hrest
        simp only [exceptBind_ok, exceptPure_ok] at hrest
        rcases hrest with ⟨y, hy, hd⟩
        subst hy
        subst hd
        refine ⟨fun hT => absurd hT hact, fun _ hT => absurd hT hvis,
          fun _ _ => ⟨rfl, ?_, ?_⟩⟩
        · cases inc <;> simp [dictGet]
        · intro hT
          subst hT
          rfl

/-- C2 (as written, refuted): the summarizer is NOT total over arbitrary
mapping-shaped segments: a present payload value that is not itself a
mapping makes the nested `.get` raise `AttributeError`.  Concretely,
`build_segment_details({"activity": "x"}, False)` raises. -/
theorem C2_counterexample :
    build_segment_details [("activity", JValue.str "x")] false
      = .error .attributeError := rfl

/-- C2 (amended): the summarizer is pure and total over every
mapping-shaped segment whose present nested payload values are themselves
mappings (and whose `timelinePath`, when present, is a list of mappings):
under that shape condition it returns, without raising, exactly the
summary of the variant selected by key presence, in which every summary
field is the defaulted lookup chain of the source's `.get` calls
(`activitySummary`, `visitSummary`, `pathSummary`) — so every missing
nested field yields its null default (`activityType`,
`activityProbability`, `segmentProbability`, `distanceMeters`,
`startPoint`, `endPoint` for activity; `visitProbability`, `placeId`,
`semanticType`, `placeLocation` for visit; and an empty or missing path
gives point count 0 with first/last point absent). -/
theorem C2_summarizer_totality (segment : List (String × JValue)) (inc : Bool)
    (h : segShapeOK segment = true) :
    ∃ d, build_segment_details segment inc = .ok d ∧
      (∀ a, dictGet segment "activity" = some (.obj a) → d = activitySummary a) ∧
      (dictGet segment "activity" = none →
        ∀ v, dictGet segment "visit" = some (.obj v) → d = visitSummary v) ∧
      (dictGet segment "activity" = none → dictGet segment "visit" = none →
        d = pathSummary segment inc) :=
  build_details_shape_ok segment inc h

/-- Witness for C2 at a concrete input: an activity segment with no
`topCandidate` substructure satisfies the shape condition, and its
summary is the fully defaulted activity summary (every nested field
missing, hence null). -/
theorem C2_witness :
    segShapeOK [("activity", JValue.obj [])] = true ∧
    ∃ d, build_segment_details [("activity", JValue.obj [])] false = .ok d ∧
      (∀ a, dictGet [("activity", JValue.obj [])] "activity" = some (.obj a) →
        d = activitySummary a) ∧
      (dictGet [("activity", JValue.obj [])] "activity" = none →
        ∀ v, dictGet [("activity", JValue.obj [])] "visit" = some (.obj v) →
        d = visitSummary v) ∧
      (dictGet [("activity", JValue.obj [])] "activity" = none →
        dictGet [("activity", JValue.obj [])] "visit" = none →
        d = pathSummary [("activity", JValue.obj [])] false) :=
  ⟨rfl, C2_summarizer_totality [("activity", JValue.obj [])] false rfl⟩

/-- C6: the summarizer selects its variant by key presence in fixed
precedence order: a present `activity` key yields the activity summary
regardless of other keys; otherwise a present `visit` key yields the
visit summary; otherwise the `timelinePath` fallback summary is
produced, and the full ordered point list is embedded in it exactly when
the caller passed `include_timeline_points`. -/
theorem C6_variant_precedence (segment : List (String × JValue)) (inc : Bool)
    (d : List (String × JValue))
    (h : build_segment_details segment inc = .ok d) :
    (dictHasKey segment "activity" = true →
      dictGet d "segmentType" = some (.str "activity")) ∧
    (dictHasKey segment "activity" = false → dictHasKey segment "visit" = true →
      dictGet d "segmentType" = some (.str "visit")) ∧
    (dictHasKey segment "activity" = false → dictHasKey segment "visit" = false →
      dictGet d "segmentType" = some (.str "timelinePath") ∧
      ((dictGet d "timelinePath").isSome = true ↔ inc = true) ∧
      (inc = true →
        dictGet d "timelinePath" = some (dictGetD segment "timelinePath" (.arr [])))) :=
  variantSelection segment inc d h

/-- Witness for C6 at a concrete input: a segment with only a `visit`
payload summarizes to the visit variant. -/
theorem C6_witness :
    ∃ d, build_segment_details [("visit", JValue.obj [])] false = .ok d ∧
      ((dictHasKey [("visit", JValue.obj [])] "activity" = true →
        dictGet d "segmentType" = some (.str "activity")) ∧
      (dictHasKey [("visit", JValue.obj [])] "activity" = false →
        dictHasKey [("visit", JValue.obj [])] "visit" = true →
        dictGet d "segmentType" = some (.str "visit")) ∧
      (dictHasKey [("visit", JValue.obj [])] "activity" = false →
        dictHasKey [("visit", JValue.obj [])] "visit" = false →
        dictGet d "segmentType" = some (.str "timelinePath") ∧
        ((dictGet d "timelinePath").isSome = true ↔ false = true) ∧
        (false = true →
          dictGet d "timelinePath"
            = some (dictGetD [("visit", JValue.obj [])] "timelinePath" (.arr []))))) :=
  ⟨_, rfl, C6_variant_precedence [("visit", JValue.obj [])] false _ rfl⟩

/-! ## Calendar arithmetic lemmas -/

set_option maxHeartbeats 1600000

theorem daysInMonth_bounds (y m : ℤ) : 1 ≤ daysInMonth y m ∧ daysInMonth y m ≤ 31 := by
  unfold daysInMonth
  split
  · split <;> omega
  · split <;> omega

theorem dbm_nonneg (y m : ℤ) : 0 ≤ daysBeforeMonth y m := by
  unfold daysBeforeMonth
  split_ifs <;> omega

theorem dbm_d_le (y m d : ℤ) (hv : ValidDate y m d) :
    daysBeforeMonth y m + d ≤ 365 + (if isLeap y then 1 else 0) := by
  obtain ⟨_, _, hm1, hm2, hd1, hd2⟩ := hv
  cases hl : isLeap y <;> interval_cases m <;>
    simp [daysBeforeMonth, daysInMonth, hl] at hd2 ⊢ <;> omega

theorem dbm_step (y m : ℤ) (h1 : 1 ≤ m) (h2 : m ≤ 11) :
    daysBeforeMonth y (m + 1) = daysBeforeMonth y m + daysInMonth y m := by
  cases hl : isLeap y <;> interval_cases m <;>
    simp [daysBeforeMonth, daysInMonth, hl] <;> omega

theorem dbm_mono (y m1 m2 : ℤ) (h1 : 1 ≤ m1) (h2 : m1 < m2) (h3 : m2 ≤ 12) :
    daysBeforeMonth y m1 + daysInMonth y m1 ≤ daysBeforeMonth y m2 := by
  have h4 : m1 ≤ 11 := by omega
  cases hl : isLeap y <;> interval_cases m1 <;> interval_cases m2 <;>
    simp [daysBeforeMonth, daysInMonth, hl] <;> omega

theorem yearStart_succ (y : ℤ) :
    yearStartDays (y + 1) = yearStartDays y + 365 + (if isLeap y then 1 else 0) := by
  simp only [yearStartDays, isLeap]
  split
  · rename_i h
    simp only [Bool.and_eq_true, beq_iff_eq, Bool.or_eq_true, bne_iff_ne] at h
    omega
  · rename_i h
    simp only [Bool.and_eq_true, beq_iff_eq, Bool.or_eq_true, bne_iff_ne] at h
    push_neg at h
    omega

theorem yearStart_mono (y1 y2 : ℤ) (h : y1 < y2) :
    yearStartDays y1 + 365 + (if isLeap y1 then 1 else 0) ≤ yearStartDays y2 := by
  simp only [yearStartDays, isLeap]
  split
  · rename_i h2
    simp only [Bool.and_eq_true, beq_iff_eq, Bool.or_eq_true, bne_iff_ne] at h2
    omega
  · omega

theorem dateOrdinal_lt (y1 m1 d1 y2 m2 d2 : ℤ)
    (v1 : ValidDate y1 m1 d1) (v2 : ValidDate y2 m2 d2)
    (h : dateLtB y1 m1 d1 y2 m2 d2 = true) :
    dateOrdinal y1 m1 d1 < dateOrdinal y2 m2 d2 := by
  have hb := dbm_d_le y1 m1 d1 v1
  obtain ⟨hy1a, hy1b, hm1a, hm1b, hd1a, hd1b⟩ := v1
  obtain ⟨hy2a, hy2b, hm2a, hm2b, hd2a, hd2b⟩ := v2
  simp only [dateLtB, Bool.or_eq_true, Bool.and_eq_true, decide_eq_true_eq,
    beq_iff_eq] at h
  unfold dateOrdinal
  rcases h with hy | ⟨hy, hm | ⟨hm, hd⟩⟩
  · have hys := yearStart_mono y1 y2 hy
    have hnn := dbm_nonneg y2 m2
    by_cases hl : isLeap y1 = true
    · rw [if_pos hl] at hb hys
      omega
    · rw [if_neg hl] at hb hys
      omega
  · subst hy
    have hstep := dbm_mono y1 m1 m2 hm1a hm hm2b
    omega
  · subst hy
    subst hm
    omega

theorem dateLtB_false_cases (y1 m1 d1 y2 m2 d2 : ℤ)
    (h : dateLtB y1 m1 d1 y2 m2 d2 = false) :
    (y1 = y2 ∧ m1 = m2 ∧ d1 = d2) ∨ dateLtB y2 m2 d2 y1 m1 d1 = true := by
  simp only [dateLtB, Bool.or_eq_true, Bool.and_eq_true, decide_eq_true_eq,
    beq_iff_eq, Bool.or_eq_false_iff, Bool.and_eq_false_iff,
    decide_eq_false_iff_not, beq_eq_false_iff_ne] at h ⊢
  omega

theorem dateOrdinal_le_of_not_lt (y1 m1 d1 y2 m2 d2 : ℤ)
    (v1 : ValidDate y1 m1 d1) (v2 : ValidDate y2 m2 d2)
    (h : dateLtB y1 m1 d1 y2 m2 d2 = false) :
    dateOrdinal y2 m2 d2 ≤ dateOrdinal y1 m1 d1 := by
  rcases dateLtB_false_cases y1 m1 d1 y2 m2 d2 h with ⟨h1, h2, h3⟩ | hlt
  · subst h1; subst h2; subst h3; exact le_refl _
  · exact le_of_lt (dateOrdinal_lt y2 m2 d2 y1 m1 d1 v2 v1 hlt)

theorem nextDay_ordinal (y m d : ℤ) (hv : ValidDate y m d) :
    dateOrdinal (nextDay y m d).1 (nextDay y m d).2.1 (nextDay y m d).2.2
      = dateOrdinal y m d + 1 := by
  obtain ⟨hy1, hy2, hm1, hm2, hd1, hd2⟩ := hv
  unfold nextDay
  split
  · simp only [dateOrdinal]
    omega
  · split
    · rename_i hnd hm12
      have hstep := dbm_step y m hm1 (by omega)
      simp only [dateOrdinal]
      omega
    · rename_i hnd hm12
      have hm' : m = 12 := by omega
      subst hm'
      have hdim : daysInMonth y 12 = 31 := rfl
      have hd' : d = 31 := by omega
      subst hd'
      have hys := yearStart_succ y
      simp only [dateOrdinal, daysBeforeMonth]
      cases hl : isLeap y <;> simp [hl] at hys ⊢ <;> omega

theorem nextDay_valid (y m d y2 m2 d2 : ℤ) (hv : ValidDate y m d)
    (hv2 : ValidDate y2 m2 d2) (hlt : dateLtB y m d y2 m2 d2 = true) :
    ValidDate (nextDay y m d).1 (nextDay y m d).2.1 (nextDay y m d).2.2 := by
  obtain ⟨hy1, hy2b, hm1, hm2, hd1, hd2⟩ := hv
  obtain ⟨hz1, hz2, hn1, hn2, he1, he2⟩ := hv2
  simp only [dateLtB, Bool.or_eq_true, Bool.and_eq_true, decide_eq_true_eq,
    beq_iff_eq] at hlt
  unfold nextDay
  split
  · dsimp only
    exact ⟨hy1, hy2b, hm1, hm2, by omega, by omega⟩
  · split
    · rename_i h1 h2
      dsimp only
      have := (daysInMonth_bounds y (m + 1)).1
      exact ⟨hy1, hy2b, by omega, by omega, by omega, by omega⟩
    · rename_i h1 h2
      dsimp only
      have hm12 : m = 12 := by omega
      subst hm12
      have hdimy : daysInMonth y 12 = 31 := rfl
      have hd31 : d = 31 := by omega
      subst hd31
      have hy9999 : y + 1 ≤ 9999 := by
        rcases hlt with hy | ⟨hy, hm | ⟨hm, hd⟩⟩
        · omega
        · omega
        · subst hy
          have hm2' : m2 = 12 := hm.symm
          subst hm2'
          have hdim2 : daysInMonth y 12 = 31 := rfl
          omega
      have hdim1 : daysInMonth (y + 1) 1 = 31 := rfl
      exact ⟨by omega, hy9999, by omega, by omega, by omega, by omega⟩

/-! ## Splitting lemmas -/

theorem getLast?_cons_ne {α : Type} (a : α) (l : List α) (h : l ≠ []) :
    (a :: l).getLast? = l.getLast? := by
  cases l with
  | nil => exact absurd rfl h
  | cons b t => rfl

theorem nextMidnight_fields (cur : PyDateTime) :
    nextMidnight cur = ⟨(nextDay cur.year cur.month cur.day).1,
      (nextDay cur.year cur.month cur.day).2.1,
      (nextDay cur.year cur.month cur.day).2.2, 0, cur.offset⟩ := rfl

theorem nextMidnight_valid (cur e : PyDateTime) (hc : cur.Valid)
    (he : ValidDate e.year e.month e.day)
    (h : dateLtB cur.year cur.month cur.day e.year e.month e.day = true) :
    (nextMidnight cur).Valid := by
  obtain ⟨hcd, ht1, ht2, ho1, ho2⟩ := hc
  rw [nextMidnight_fields]
  refine ⟨nextDay_valid cur.year cur.month cur.day e.year e.month e.day hcd he h,
    le_refl 0, ?_, ho1, ho2⟩
  show (0:ℤ) < usPerDay
  decide

theorem nextMidnight_ord (cur : PyDateTime) (hc : ValidDate cur.year cur.month cur.day) :
    (nextMidnight cur).dateOrd = cur.dateOrd + 1 := by
  rw [nextMidnight_fields]
  exact nextDay_ordinal cur.year cur.month cur.day hc

theorem splitGo_ne_nil (e : PyDateTime) (fuel : ℕ) (cur : PyDateTime) :
    splitGo e fuel cur ≠ [] := by
  cases fuel with
  | zero => simp [splitGo]
  | succ n =>
    by_cases h : dateLtB cur.year cur.month cur.day e.year e.month e.day = true <;>
      simp [splitGo, h]

theorem splitGo_head (e : PyDateTime) (fuel : ℕ) (cur : PyDateTime) :
    ∃ q, (splitGo e fuel cur).head? = some (cur, q) := by
  cases fuel with
  | zero => exact ⟨e, rfl⟩
  | succ n =>
    by_cases h : dateLtB cur.year cur.month cur.day e.year e.month e.day = true
    · exact ⟨nextMidnight cur, by simp [splitGo, h]⟩
    · exact ⟨e, by simp [splitGo, h]⟩

theorem splitGo_last (e : PyDateTime) : ∀ (fuel : ℕ) (cur : PyDateTime),
    ∃ q, (splitGo e fuel cur).getLast? = some (q, e) := by
  intro fuel
  induction fuel with
  | zero => exact fun cur => ⟨cur, rfl⟩
  | succ n ih =>
    intro cur
    by_cases h : dateLtB cur.year cur.month cur.day e.year e.month e.day = true
    · obtain ⟨q, hq⟩ := ih (nextMidnight cur)
      refine ⟨q, ?_⟩
      rw [splitGo, if_pos h, getLast?_cons_ne _ _ (splitGo_ne_nil e n (nextMidnight cur))]
      exact hq
    · exact ⟨cur, by simp [splitGo, h]⟩

theorem splitGo_chain (e : PyDateTime) : ∀ (fuel : ℕ) (cur : PyDateTime),
    List.Chain' (fun p q => p.2 = q.1) (splitGo e fuel cur) := by
  intro fuel
  induction fuel with
  | zero => intro cur; simp [splitGo]
  | succ n ih =>
    intro cur
    by_cases h : dateLtB cur.year cur.month cur.day e.year e.month e.day = true
    · rw [splitGo, if_pos h]
      refine List.chain'_cons'.mpr ⟨?_, ih _⟩
      intro y hy
      obtain ⟨q, hq⟩ := splitGo_head e n (nextMidnight cur)
      rw [hq] at hy
      cases hy
      rfl
    · rw [splitGo, if_neg h]
      simp

theorem splitGo_valid (e : PyDateTime) (he : ValidDate e.year e.month e.day) :
    ∀ (fuel : ℕ) (cur : PyDateTime), cur.Valid →
    ∀ p ∈ splitGo e fuel cur, p.1.Valid := by
  intro fuel
  induction fuel with
  | zero =>
    intro cur hc p hp
    simp [splitGo] at hp
    subst hp
    exact hc
  | succ n ih =>
    intro cur hc p hp
    by_cases h : dateLtB cur.year cur.month cur.day e.year e.month e.day = true
    · rw [splitGo, if_pos h] at hp
      rcases List.mem_cons.mp hp with rfl | hp2
      · exact hc
      · exact ih (nextMidnight cur) (nextMidnight_valid cur e hc he h) p hp2
    · rw [splitGo, if_neg h] at hp
      simp at hp
      subst hp
      exact hc

theorem instant_expand (t : PyDateTime) :
    t.instant = t.dateOrd * 86400000000 + t.tod - t.offset := rfl

theorem finalPair_within (cur e : PyDateTime) (he : e.Valid)
    (hoff : e.offset = cur.offset) (hord : cur.instant ≤ e.instant)
    (hle : e.dateOrd ≤ cur.dateOrd) :
    withinOneDay (cur, e) := by
  refine ⟨hord, ?_⟩
  have h1 := he.2.1
  have h2 := he.2.2.1
  simp only [usPerDay] at h2
  show e.instant + cur.offset ≤ (cur.dateOrd + 1) * usPerDay
  simp only [instant_expand, usPerDay]
  omega

theorem splitGo_within (e : PyDateTime) (he : e.Valid) :
    ∀ (fuel : ℕ) (cur : PyDateTime), cur.Valid →
    e.offset = cur.offset →
    cur.instant ≤ e.instant →
    e.dateOrd - cur.dateOrd ≤ (fuel : ℤ) →
    ∀ p ∈ splitGo e fuel cur,
      withinOneDay p ∧ p.1.offset = cur.offset ∧ p.2.offset = cur.offset := by
  intro fuel
  induction fuel with
  | zero =>
    intro cur hc hoff hord hfuel p hp
    simp [splitGo] at hp
    subst hp
    exact ⟨finalPair_within cur e he hoff hord (by omega), rfl, hoff⟩
  | succ n ih =>
    intro cur hc hoff hord hfuel p hp
    by_cases h : dateLtB cur.year cur.month cur.day e.year e.month e.day = true
    · rw [splitGo, if_pos h] at hp
      have hordlt : cur.dateOrd < e.dateOrd :=
        dateOrdinal_lt _ _ _ _ _ _ hc.1 he.1 h
      have hnmv := nextMidnight_valid cur e hc he.1 h
      have hnmo := nextMidnight_ord cur hc.1
      have hnoff : (nextMidnight cur).offset = cur.offset := rfl
      have hnmtod : (nextMidnight cur).tod = 0 := rfl
      rcases List.mem_cons.mp hp with rfl | hp2
      · have h2 := hc.2.2.1
        simp only [usPerDay] at h2
        refine ⟨⟨?_, ?_⟩, rfl, rfl⟩
        · show cur.instant ≤ (nextMidnight cur).instant
          simp only [instant_expand, hnmo, hnmtod, hnoff]
          omega
        · show (nextMidnight cur).instant + cur.offset ≤ (cur.dateOrd + 1) * usPerDay
          simp only [instant_expand, hnmo, hnmtod, hnoff, usPerDay]
          omega
      · have h1 := he.2.1
        have hnord : (nextMidnight cur).instant ≤ e.instant := by
          simp only [instant_expand, hnmo, hnmtod, hnoff]
          omega
        have hfuel2 : e.dateOrd - (nextMidnight cur).dateOrd ≤ (n : ℤ) := by
          rw [hnmo]
          push_cast at hfuel
          omega
        have hres := ih (nextMidnight cur) hnmv (by rw [hnoff]; exact hoff) hnord hfuel2 p hp2
        rw [hnoff] at hres
        exact hres
    · rw [splitGo, if_neg h] at hp
      simp at hp
      subst hp
      have hfalse : dateLtB cur.year cur.month cur.day e.year e.month e.day = false := by
        revert h
        cases dateLtB cur.year cur.month cur.day e.year e.month e.day <;> simp
      have hle : e.dateOrd ≤ cur.dateOrd :=
        dateOrdinal_le_of_not_lt _ _ _ _ _ _ hc.1 he.1 hfalse
      exact ⟨finalPair_within cur e he hoff hord hle, rfl, hoff⟩

theorem splitGo_sum (e : PyDateTime) : ∀ (fuel : ℕ) (cur : PyDateTime),
    ((splitGo e fuel cur).map (fun p => p.2.instant - p.1.instant)).sum
      = e.instant - cur.instant := by
  intro fuel
  induction fuel with
  | zero =>
    intro cur
    simp [splitGo]
  | succ n ih =>
    intro cur
    by_cases h : dateLtB cur.year cur.month cur.day e.year e.month e.day = true
    · rw [splitGo, if_pos h]
      simp only [List.map_cons, List.sum_cons, ih]
      ring
    · rw [splitGo, if_neg h]
      simp

theorem instant_inj (a b : PyDateTime) (ha : a.Valid) (hb : b.Valid)
    (hoff : b.offset = a.offset) (h : b.instant = a.instant) : b = a := by
  have h1 := ha.2.1
  have h2 := ha.2.2.1
  have h3 := hb.2.1
  have h4 := hb.2.2.1
  simp only [usPerDay] at h2 h4
  rw [instant_expand, instant_expand] at h
  have hord : b.dateOrd = a.dateOrd ∧ b.tod = a.tod := by omega
  have htrip : b.year = a.year ∧ b.month = a.month ∧ b.day = a.day := by
    cases hc : dateLtB b.year b.month b.day a.year a.month a.day with
    | true =>
      exfalso
      have := dateOrdinal_lt _ _ _ _ _ _ hb.1 ha.1 hc
      have ho := hord.1
      unfold PyDateTime.dateOrd at ho
      omega
    | false =>
      rcases dateLtB_false_cases _ _ _ _ _ _ hc with ⟨e1, e2, e3⟩ | hrev
      · exact ⟨e1, e2, e3⟩
      · exfalso
        have := dateOrdinal_lt _ _ _ _ _ _ ha.1 hb.1 hrev
        have ho := hord.1
        unfold PyDateTime.dateOrd at ho
        omega
  obtain ⟨hy, hm, hd⟩ := htrip
  obtain ⟨ho2, ht2⟩ := hord
  cases a
  cases b
  simp_all

/-! ## Rounding lemmas -/

theorem roundHalfToEven_abs (x : ℚ) : |((roundHalfToEven x : ℤ) : ℚ) - x| ≤ 1 / 2 := by
  unfold roundHalfToEven
  have h1 : (⌊x⌋ : ℚ) ≤ x := Int.floor_le x
  have h2 : x < ⌊x⌋ + 1 := Int.lt_floor_add_one x
  split_ifs with ha hb hc <;> rw [abs_le] <;> constructor <;> push_cast <;> linarith

theorem pyRound2_abs (x : ℚ) : |pyRound2 x - x| ≤ 1 / 200 := by
  have h := roundHalfToEven_abs (x * 100)
  unfold pyRound2
  have heq : ((roundHalfToEven (x * 100) : ℤ) : ℚ) / 100 - x
      = (((roundHalfToEven (x * 100) : ℤ) : ℚ) - x * 100) / 100 := by ring
  rw [heq, abs_div, show |(100 : ℚ)| = 100 by norm_num]
  linarith

theorem abs_sub_add_le (a b c d k : ℚ) (h1 : |a - c| ≤ 1 / 200) (h2 : |b - d| ≤ k / 200) :
    |a + b - (c + d)| ≤ (k + 1) / 200 := by
  rw [show a + b - (c + d) = (a - c) + (b - d) by ring]
  calc |(a - c) + (b - d)| ≤ |a - c| + |b - d| := abs_add _ _
    _ ≤ (k + 1) / 200 := by linarith

theorem dur_sum_bound (l : List (PyDateTime × PyDateTime)) :
    |(l.map durationMinutes).sum
      - (((l.map (fun p => p.2.instant - p.1.instant)).sum : ℤ) : ℚ) / 1000000 / 60|
      ≤ (l.length : ℚ) / 200 := by
  induction l with
  | nil => simp
  | cons p t ih =>
    simp only [List.map_cons, List.sum_cons, List.length_cons]
    have h1 := pyRound2_abs (((p.2.instant - p.1.instant : ℤ) : ℚ) / 1000000 / 60)
    have hdur : durationMinutes p
        = pyRound2 (((p.2.instant - p.1.instant : ℤ) : ℚ) / 1000000 / 60) := rfl
    rw [hdur, Int.cast_add, add_div, add_div, Nat.cast_add, Nat.cast_one]
    exact abs_sub_add_le _ _ _ _ _ h1 ih

/-! ## Claim theorems for the splitting algorithm -/

/-- C7: `split_segment_by_day(start, end)` fails, with the `ValueError`
the spec calls `OrderError`, exactly when `end < start` (aware datetimes
compare by instant); in the failure case the result is only the error, so
no intervals are yielded. -/
theorem C7_order_error (s e : PyDateTime) :
    (∃ msg, split_segment_by_day s e = .error (.valueError msg)) ↔ e.instant < s.instant := by
  unfold split_segment_by_day
  split
  · rename_i h
    simp [h]
  · rename_i h
    split <;> simp [h]

/-- C1 (as written, refuted): when start and end carry different UTC
offsets, the final yielded interval can leave the cursor's calendar day.
Start `2024-01-01T23:00:00+00:00` and end `2024-01-01T22:30:00-03:00`
(a later instant) are both valid, `split` succeeds with the single pair
`(start, end)`, but that interval does not lie within the cursor's
calendar day at the cursor's offset: reckoned at `+00:00` it runs from
23:00 on Jan 1 to 01:30 on Jan 2. -/
theorem C1_counterexample :
    (⟨2024, 1, 1, 82800000000, 0⟩ : PyDateTime).Valid ∧
    (⟨2024, 1, 1, 81000000000, -10800000000⟩ : PyDateTime).Valid ∧
    (⟨2024, 1, 1, 82800000000, 0⟩ : PyDateTime).instant
      ≤ (⟨2024, 1, 1, 81000000000, -10800000000⟩ : PyDateTime).instant ∧
    split_segment_by_day ⟨2024, 1, 1, 82800000000, 0⟩
        ⟨2024, 1, 1, 81000000000, -10800000000⟩
      = .ok [(⟨2024, 1, 1, 82800000000, 0⟩, ⟨2024, 1, 1, 81000000000, -10800000000⟩)] ∧
    ¬ withinOneDay (⟨2024, 1, 1, 82800000000, 0⟩,
        ⟨2024, 1, 1, 81000000000, -10800000000⟩) := by
  refine ⟨by decide, by decide, by decide, rfl, by decide⟩

/-- C1 (amended): for valid instants with `end ≥ start` that carry the
SAME UTC offset, the split succeeds and yields a finite, nonempty,
contiguous sequence (each interval's end is the next interval's start)
whose first interval starts at `start` and last interval ends at `end`,
every interval is forward and lies within the single calendar day of its
cursor at the cursor's offset, every boundary (in particular each
synthesized midnight) carries the cursor's offset, and if `end == start`
the result is exactly the one zero-length pair `(start, start)`. -/
theorem C1_split_by_day (s e : PyDateTime) (hs : s.Valid) (he : e.Valid)
    (hoff : e.offset = s.offset) (hord : s.instant ≤ e.instant) :
    ∃ l, split_segment_by_day s e = .ok l ∧ l ≠ [] ∧
      (∃ q, l.head? = some (s, q)) ∧
      (∃ q, l.getLast? = some (q, e)) ∧
      List.Chain' (fun p q => p.2 = q.1) l ∧
      (∀ p ∈ l, withinOneDay p ∧ p.1.offset = s.offset ∧ p.2.offset = s.offset) ∧
      (e.instant = s.instant → l = [(s, s)]) := by
  unfold split_segment_by_day
  rw [if_neg (not_lt.mpr hord)]
  by_cases heq : e.instant = s.instant
  · rw [if_pos (beq_iff_eq.mpr heq)]
    have hes : e = s := instant_inj s e hs he hoff heq
    refine ⟨[(s, e)], rfl, by simp, ⟨e, rfl⟩, ⟨s, rfl⟩, by simp, ?_, fun _ => by rw [hes]⟩
    intro p hp
    simp at hp
    subst hp
    exact ⟨finalPair_within s e he hoff hord (by rw [hes]), rfl, hoff⟩
  · rw [if_neg (by simpa using heq)]
    have hfuel : e.dateOrd - s.dateOrd ≤ (((e.dateOrd - s.dateOrd).toNat : ℕ) : ℤ) :=
      Int.self_le_toNat _
    exact ⟨_, rfl, splitGo_ne_nil e _ s, splitGo_head e _ s, splitGo_last e _ s,
      splitGo_chain e _ s,
      fun p hp => splitGo_within e he _ s hs hoff hord hfuel p hp,
      fun hq => absurd hq heq⟩

/-- Witness for C1 at the spec's own example: `2024-01-01T23:30:00+00:00`
to `2024-01-02T00:30:00+00:00` (same offset). -/
theorem C1_witness :
    ∃ l, split_segment_by_day ⟨2024, 1, 1, 84600000000, 0⟩
        ⟨2024, 1, 2, 1800000000, 0⟩ = .ok l ∧ l ≠ [] ∧
      (∃ q, l.head? = some (⟨2024, 1, 1, 84600000000, 0⟩, q)) ∧
      (∃ q, l.getLast? = some (q, ⟨2024, 1, 2, 1800000000, 0⟩)) ∧
      List.Chain' (fun p q => p.2 = q.1) l ∧
      (∀ p ∈ l, withinOneDay p ∧ p.1.offset = (0 : ℤ) ∧ p.2.offset = (0 : ℤ)) ∧
      ((⟨2024, 1, 2, 1800000000, 0⟩ : PyDateTime).instant
          = (⟨2024, 1, 1, 84600000000, 0⟩ : PyDateTime).instant →
        l = [(⟨2024, 1, 1, 84600000000, 0⟩, ⟨2024, 1, 1, 84600000000, 0⟩)]) :=
  C1_split_by_day ⟨2024, 1, 1, 84600000000, 0⟩ ⟨2024, 1, 2, 1800000000, 0⟩
    (by decide) (by decide) rfl (by decide)

/-- C5: for `end ≥ start`, splitting succeeds and the sum of the
`durationMinutes` values over the yielded slices equals the exact length
of `[start, end]` in minutes up to at most `0.01` per slice (each slice
contributes a rounding error of at most half of `0.01`). -/
theorem C5_duration_sum (s e : PyDateTime) (hord : s.instant ≤ e.instant) :
    ∃ l, split_segment_by_day s e = .ok l ∧
      |(l.map durationMinutes).sum
        - ((e.instant - s.instant : ℤ) : ℚ) / 1000000 / 60|
        ≤ (l.length : ℚ) * (1 / 100) := by
  unfold split_segment_by_day
  rw [if_neg (not_lt.mpr hord)]
  by_cases heq : e.instant = s.instant
  · rw [if_pos (beq_iff_eq.mpr heq)]
    refine ⟨_, rfl, ?_⟩
    simp [durationMinutes, heq]
    norm_num [pyRound2, roundHalfToEven]
  · rw [if_neg (by simpa using heq)]
    refine ⟨_, rfl, ?_⟩
    have hsum := splitGo_sum e (e.dateOrd - s.dateOrd).toNat s
    have hbound := dur_sum_bound (splitGo e (e.dateOrd - s.dateOrd).toNat s)
    rw [hsum] at hbound
    have hlen : (0 : ℚ) ≤ ((splitGo e (e.dateOrd - s.dateOrd).toNat s).length : ℚ) :=
      Nat.cast_nonneg _
    calc |((splitGo e (e.dateOrd - s.dateOrd).toNat s).map durationMinutes).sum
        - ((e.instant - s.instant : ℤ) : ℚ) / 1000000 / 60|
        ≤ ((splitGo e (e.dateOrd - s.dateOrd).toNat s).length : ℚ) / 200 := hbound
      _ ≤ ((splitGo e (e.dateOrd - s.dateOrd).toNat s).length : ℚ) * (1 / 100) := by
          linarith

/-- Witness for C5 at the spec's example segment. -/
theorem C5_witness :
    ∃ l, split_segment_by_day ⟨2024, 1, 1, 84600000000, 0⟩
        ⟨2024, 1, 2, 1800000000, 0⟩ = .ok l ∧
      |(l.map durationMinutes).sum
        - (((⟨2024, 1, 2, 1800000000, 0⟩ : PyDateTime).instant
            - (⟨2024, 1, 1, 84600000000, 0⟩ : PyDateTime).instant : ℤ) : ℚ) / 1000000 / 60|
        ≤ (l.length : ℚ) * (1 / 100) :=
  C5_duration_sum ⟨2024, 1, 1, 84600000000, 0⟩ ⟨2024, 1, 2, 1800000000, 0⟩ (by decide)

/-! ## Lexicographic string-order lemmas -/

theorem char_toNat_inj (a b : Char) (h : a.toNat = b.toNat) : a = b := by
  apply Char.ext
  exact UInt32.ext h

theorem charListLt_irrefl (a : List Char) : charListLt a a = false := by
  induction a with
  | nil => rfl
  | cons c t ih => simp [charListLt, ih]

theorem charListLt_asymm (a b : List Char) (h : charListLt a b = true) :
    charListLt b a = false := by
  induction a generalizing b with
  | nil =>
    cases b with
    | nil => simp [charListLt] at h
    | cons c t => rfl
  | cons c t ih =>
    cases b with
    | nil => simp [charListLt] at h
    | cons c' t' =>
      simp only [charListLt] at h ⊢
      split at h
      · rename_i h1
        rw [if_neg (by omega), if_pos h1]
      · split at h
        · exact absurd h (by simp)
        · rename_i h1 h2
          rw [if_neg h2, if_neg h1]
          exact ih t' h

theorem charListLt_connex (a b : List Char) (h1 : charListLt a b = false)
    (h2 : charListLt b a = false) : a = b := by
  induction a generalizing b with
  | nil =>
    cases b with
    | nil => rfl
    | cons c t => simp [charListLt] at h1
  | cons c t ih =>
    cases b with
    | nil => simp [charListLt] at h2
    | cons c' t' =>
      simp only [charListLt] at h1 h2
      split at h1
      · exact absurd h1 (by simp)
      · split at h1
        · rename_i g1 g2
          rw [if_pos g2] at h2
          exact absurd h2 (by simp)
        · rename_i g1 g2
          have hc : c = c' := char_toNat_inj c c' (by omega)
          subst hc
          rw [if_neg g1, if_neg g2] at h2
          rw [ih t' h1 h2]

theorem charListLt_trans (a b c : List Char) (h1 : charListLt a b = true)
    (h2 : charListLt b c = true) : charListLt a c = true := by
  induction a generalizing b c with
  | nil =>
    cases c with
    | nil =>
      cases b with
      | nil => exact h1
      | cons x t => simp [charListLt] at h2
    | cons x t => rfl
  | cons x t ih =>
    cases b with
    | nil => simp [charListLt] at h1
    | cons y u =>
      cases c with
      | nil => simp [charListLt] at h2
      | cons z v =>
        simp only [charListLt] at h1 h2 ⊢
        split at h1
        · rename_i g1
          split at h2
          · rename_i g2
            rw [if_pos (by omega)]
          · split at h2
            · exact absurd h2 (by simp)
            · rename_i g2 g3
              have : y.toNat = z.toNat := by omega
              rw [if_pos (by omega)]
        · split at h1
          · exact absurd h1 (by simp)
          · rename_i g1 g2
            have hxy : x.toNat = y.toNat := by omega
            split at h2
            · rename_i g3
              rw [if_pos (by omega)]
            · split at h2
              · exact absurd h2 (by simp)
              · rename_i g3 g4
                rw [if_neg (by omega), if_neg (by omega)]
                exact ih u v h1 h2

theorem charListLe_total (a b : List Char) :
    charListLe a b = true ∨ charListLe b a = true := by
  unfold charListLe
  by_cases h : charListLt b a = true
  · right
    simp [charListLt_asymm b a h]
  · left
    simp at h
    simp [h]

theorem charListLe_trans (a b c : List Char) (h1 : charListLe a b = true)
    (h2 : charListLe b c = true) : charListLe a c = true := by
  unfold charListLe at h1 h2 ⊢
  simp only [Bool.not_eq_true'] at h1 h2 ⊢
  by_cases hab : charListLt a b = true
  · by_cases hbc : charListLt b c = true
    · exact charListLt_asymm a c (charListLt_trans a b c hab hbc)
    · have hbc' : charListLt b c = false := by
        revert hbc
        cases charListLt b c <;> simp
      have hbceq : b = c := charListLt_connex b c hbc' h2
      subst hbceq
      exact charListLt_asymm a b hab
  · have hab' : charListLt a b = false := by
      revert hab
      cases charListLt a b <;> simp
    have habeq : a = b := charListLt_connex a b hab' h1
    subst habeq
    exact h2

theorem string_data_inj (a b : String) (h : a.data = b.data) : a = b :=
  String.ext h

theorem strLe_refl (a : String) : strLe a a := by
  unfold strLe charListLe
  simp [charListLt_irrefl]

theorem strLe_antisymm (a b : String) (h1 : strLe a b) (h2 : strLe b a) : a = b := by
  unfold strLe charListLe at h1 h2
  simp only [Bool.not_eq_true'] at h1 h2
  exact string_data_inj a b (charListLt_connex a.data b.data h2 h1)

theorem strLt_of_le_ne (a b : String) (h1 : strLe a b) (h2 : a ≠ b) :
    charListLt a.data b.data = true := by
  unfold strLe charListLe at h1
  simp only [Bool.not_eq_true'] at h1
  by_cases h : charListLt a.data b.data = true
  · exact h
  · have h' : charListLt a.data b.data = false := by
      revert h
      cases charListLt a.data b.data <;> simp
    exact absurd (string_data_inj a b (charListLt_connex a.data b.data h' h1)) h2

instance : IsTotal String strLe :=
  ⟨fun a b => charListLe_total a.data b.data⟩

instance : IsTrans String strLe :=
  ⟨fun a b c => charListLe_trans a.data b.data c.data⟩

instance : IsAntisymm String strLe :=
  ⟨strLe_antisymm⟩

instance : IsTotal Slice sliceLe :=
  ⟨fun a b => charListLe_total (sliceKey a).data (sliceKey b).data⟩

instance : IsTrans Slice sliceLe :=
  ⟨fun a b c => charListLe_trans (sliceKey a).data (sliceKey b).data (sliceKey c).data⟩

/-! ## Grouping lemmas -/

theorem daysLookup_cons (k0 : String) (l0 : List Slice)
    (rest : List (String × List Slice)) (k' : String) :
    daysLookup ((k0, l0) :: rest) k' = if k0 = k' then l0 else daysLookup rest k' := by
  unfold daysLookup
  by_cases h : k0 = k'
  · subst h
    simp [List.find?]
  · have hb : (k0 == k') = false := beq_eq_false_iff_ne.mpr h
    simp [List.find?, hb, h]

theorem daysLookup_nil (k' : String) : daysLookup [] k' = [] := rfl

theorem addSlice_keys (days : List (String × List Slice)) (k : String) (s : Slice) :
    (addSlice days k s).map Prod.fst
      = if k ∈ days.map Prod.fst then days.map Prod.fst
        else days.map Prod.fst ++ [k] := by
  induction days with
  | nil => simp [addSlice]
  | cons p rest ih =>
    obtain ⟨k0, l0⟩ := p
    by_cases h : k0 = k
    · subst h
      simp [addSlice]
    · have hb : (k0 == k) = false := beq_eq_false_iff_ne.mpr h
      simp only [addSlice, hb, Bool.false_eq_true, if_false, List.map_cons, ih]
      by_cases hmem : k ∈ rest.map Prod.fst
      · simp [hmem, Ne.symm h]
      · simp [hmem, Ne.symm h]

theorem addSlice_cons_eq (k0 : String) (l0 : List Slice)
    (rest : List (String × List Slice)) (s : Slice) :
    addSlice ((k0, l0) :: rest) k0 s = (k0, l0 ++ [s]) :: rest := by
  simp [addSlice]

theorem addSlice_cons_ne (k0 : String) (l0 : List Slice)
    (rest : List (String × List Slice)) (k : String) (s : Slice) (h : k0 ≠ k) :
    addSlice ((k0, l0) :: rest) k s = (k0, l0) :: addSlice rest k s := by
  simp [addSlice, beq_eq_false_iff_ne.mpr h]

theorem addSlice_lookup (days : List (String × List Slice)) (k : String) (s : Slice)
    (k' : String) :
    daysLookup (addSlice days k s) k'
      = if k' = k then daysLookup days k ++ [s] else daysLookup days k' := by
  induction days with
  | nil =>
    show daysLookup [(k, [s])] k' = _
    rw [daysLookup_cons]
    by_cases h : k' = k
    · subst h
      simp [daysLookup_nil]
    · have h2 : ¬ k = k' := fun hh => h hh.symm
      simp [h, h2, daysLookup_nil]
  | cons p rest ih =>
    obtain ⟨k0, l0⟩ := p
    by_cases h : k0 = k
    · subst h
      rw [addSlice_cons_eq, daysLookup_cons]
      by_cases h2 : k0 = k'
      · subst h2
        rw [if_pos rfl, if_pos rfl, daysLookup_cons, if_pos rfl]
      · rw [if_neg h2, if_neg (fun hh : k' = k0 => h2 hh.symm), daysLookup_cons,
          if_neg h2]
  
    · rw [addSlice_cons_ne k0 l0 rest k s h, daysLookup_cons, ih]
      by_cases h2 : k0 = k'
      · subst h2
        rw [if_pos rfl, if_neg (fun hh : k0 = k => h hh), daysLookup_cons, if_pos rfl]
      · by_cases h3 : k' = k
        · rw [if_neg h2, if_pos h3, if_pos h3, daysLookup_cons, if_neg h]
        · rw [if_neg h2, if_neg h3, if_neg h3, daysLookup_cons, if_neg h2]

theorem addPairs_cons (days : List (String × List Slice)) (q : String × Slice)
    (rest : List (String × Slice)) :
    addPairs days (q :: rest) = addPairs (addSlice days q.1 q.2) rest := rfl

theorem addPairs_append (days : List (String × List Slice))
    (p1 p2 : List (String × Slice)) :
    addPairs days (p1 ++ p2) = addPairs (addPairs days p1) p2 := by
  simp [addPairs, List.foldl_append]

theorem addPairs_lookup (pairs : List (String × Slice)) :
    ∀ (days : List (String × List Slice)) (k : String),
    daysLookup (addPairs days pairs) k
      = daysLookup days k ++ (pairs.filter (fun q => q.1 == k)).map Prod.snd := by
  induction pairs with
  | nil =>
    intro days k
    simp [addPairs]
  | cons q rest ih =>
    intro days k
    obtain ⟨qk, qs⟩ := q
    rw [addPairs_cons, ih, addSlice_lookup]
    by_cases h : k = qk
    · subst h
      simp [List.filter]
    · have hb : (qk == k) = false := beq_eq_false_iff_ne.mpr (fun hh => h hh.symm)
      simp [List.filter, h, hb]

theorem addPairs_keys_mem (pairs : List (String × Slice)) :
    ∀ (days : List (String × List Slice)) (k : String),
    (k ∈ (addPairs days pairs).map Prod.fst
      ↔ k ∈ days.map Prod.fst ∨ k ∈ pairs.map Prod.fst) := by
  induction pairs with
  | nil =>
    intro days k
    simp [addPairs]
  | cons q rest ih =>
    intro days k
    obtain ⟨qk, qs⟩ := q
    rw [addPairs_cons, ih, addSlice_keys]
    by_cases hmem : qk ∈ days.map Prod.fst
    · simp only [hmem, if_true, List.map_cons, List.mem_cons]
      constructor
      · tauto
      · rintro (h | h | h)
        · tauto
        · subst h
          tauto
        · tauto
    · simp only [hmem, if_false, List.map_cons, List.mem_cons, List.mem_append,
        List.mem_singleton]
      tauto

theorem addPairs_nodup_keys (pairs : List (String × Slice)) :
    ∀ (days : List (String × List Slice)),
    (days.map Prod.fst).Nodup → ((addPairs days pairs).map Prod.fst).Nodup := by
  induction pairs with
  | nil => exact fun days h => h
  | cons q rest ih =>
    intro days h
    obtain ⟨qk, qs⟩ := q
    rw [addPairs_cons]
    refine ih _ ?_
    rw [addSlice_keys]
    by_cases hmem : qk ∈ days.map Prod.fst
    · simpa [hmem] using h
    · simp only [hmem, if_false]
      rw [List.nodup_append]
      refine ⟨h, List.nodup_singleton _, ?_⟩
      intro a ha hb
      simp only [List.mem_singleton] at hb
      subst hb
      exact hmem ha

/-! ## Parser and per-segment lemmas -/

theorem digitVal_lt (c : Char) (n : ℕ) (h : digitVal c = some n) : n < 10 := by
  unfold digitVal at h
  split at h
  · rename_i hc
    simp only [Bool.and_eq_true, decide_eq_true_eq] at hc
    injection h with h2
    omega
  · cases h

theorem readTwoDigits_lt (cs : List Char) (n : ℕ) (r : List Char)
    (h : readTwoDigits cs = some (n, r)) : n < 100 := by
  unfold readTwoDigits at h
  split at h
  · rename_i c1 c2 rest
    split at h
    · rename_i a b ha hb
      injection h with h2
      simp only [Prod.mk.injEq] at h2
      obtain ⟨h3, h4⟩ := h2
      have := digitVal_lt c1 a ha
      have := digitVal_lt c2 b hb
      omega
    · cases h
  · cases h

theorem readFourDigits_lt (cs : List Char) (n : ℕ) (r : List Char)
    (h : readFourDigits cs = some (n, r)) : n < 10000 := by
  unfold readFourDigits at h
  split at h
  · rename_i hi rest hhi
    split at h
    · rename_i lo rest2 hlo
      injection h with h2
      simp only [Prod.mk.injEq] at h2
      obtain ⟨h3, h4⟩ := h2
      have := readTwoDigits_lt cs hi rest hhi
      have := readTwoDigits_lt rest lo rest2 hlo
      omega
    · cases h
  · cases h

theorem readSixDigits_lt (cs : List Char) (n : ℕ) (r : List Char)
    (h : readSixDigits cs = some (n, r)) : n < 1000000 := by
  unfold readSixDigits at h
  split at h
  · rename_i hi rest hhi
    split at h
    · rename_i lo rest2 hlo
      injection h with h2
      simp only [Prod.mk.injEq] at h2
      obtain ⟨h3, h4⟩ := h2
      have := readFourDigits_lt cs hi rest hhi
      have := readTwoDigits_lt rest lo rest2 hlo
      omega
    · cases h
  · cases h

theorem parseFraction_lt (cs : List Char) (n : ℕ) (r : List Char)
    (h : parseFraction cs = some (n, r)) : n < 1000000 := by
  unfold parseFraction at h
  split at h
  · rename_i rest
    split at h
    · rename_i us rest2 hus
      injection h with h2
      simp only [Prod.mk.injEq] at h2
      obtain ⟨h3, h4⟩ := h2
      have := readSixDigits_lt rest us rest2 hus
      omega
    · cases h
  · injection h with h2
    simp only [Prod.mk.injEq] at h2
    omega

theorem parseOffsetTail_bound (cs : List Char) (off : ℤ)
    (h : parseOffsetTail cs = some off) : -usPerDay < off ∧ off < usPerDay := by
  unfold parseOffsetTail at h
  split at h
  · rename_i c rest
    split at h
    · split at h
      · rename_i oh rest2 hoh
        split at h
        · rename_i rest3 hr3
          split at h
          · rename_i om hom
            split at h
            · rename_i hrange
              simp only [Bool.and_eq_true, decide_eq_true_eq] at hrange
              injection h with h2
              simp only [usPerHour, usPerMinute] at h2
              unfold usPerDay
              by_cases hsign : (c == '-') = true <;> simp [hsign] at h2 <;> omega
            · cases h
          · cases h
        · cases h
      · cases h
    · cases h
  · cases h

theorem fromisoformatChars_valid (cs : List Char) (t : PyDateTime)
    (h : fromisoformatChars cs = some t) : t.Valid := by
  unfold fromisoformatChars at h
  split at h
  · cases h
  rename_i y r1 hy
  split at h
  · cases h
  rename_i r2 hr2
  split at h
  · cases h
  rename_i mo r3 hmo
  split at h
  · cases h
  rename_i r4 hr4
  split at h
  · cases h
  rename_i d r5 hd
  split at h
  · cases h
  rename_i sep r6
  split at h
  · cases h
  rename_i hh r7 hhh
  split at h
  · cases h
  rename_i r8 hr8
  split at h
  · cases h
  rename_i mi r9 hmi
  split at h
  · cases h
  rename_i r10 hr10
  split at h
  · cases h
  rename_i ss r11 hss
  split at h
  · cases h
  rename_i us r12 hus
  split at h
  · cases h
  rename_i off hoff
  split at h
  · rename_i hcond
    injection h with h2
    subst h2
    obtain ⟨hvd, hh23, hmi59, hss59⟩ := hcond
    have husb := parseFraction_lt r11 us r12 hus
    have hoffb := parseOffsetTail_bound r12 off hoff
    refine ⟨hvd, ?_, ?_, hoffb.1, hoffb.2⟩
    · dsimp only
      unfold usPerHour usPerMinute usPerSecond
      omega
    · dsimp only
      unfold usPerDay usPerHour usPerMinute usPerSecond
      omega
  · cases h

theorem fromiso_match_valid (cs : List Char) (t : PyDateTime)
    (h : (match fromisoformatChars cs with
          | some t' => Except.ok t'
          | none => (Except.error (PyErr.valueError
              ("Invalid isoformat string: " ++ String.mk cs)) : Except PyErr PyDateTime))
        = .ok t) :
    t.Valid := by
  split at h
  · rename_i t' ht'
    injection h with h2
    subst h2
    exact fromisoformatChars_valid cs t' ht'
  · cases h

theorem parse_iso8601_valid (v : String) (t : PyDateTime)
    (h : parse_iso8601 v = .ok t) : t.Valid := by
  unfold parse_iso8601 at h
  exact fromiso_match_valid _ t h

theorem asPyStr_ok (v : JValue) (s : String) (h : asPyStr v = .ok s) : v = .str s := by
  cases v <;> simp [asPyStr] at h
  rw [h]

theorem split_ok_fst_valid (s e : PyDateTime) (hs : s.Valid) (he : e.Valid)
    (l : List (PyDateTime × PyDateTime)) (h : split_segment_by_day s e = .ok l) :
    ∀ p ∈ l, p.1.Valid := by
  unfold split_segment_by_day at h
  split at h
  · cases h
  split at h
  · injection h with h2
    subst h2
    intro p hp
    simp at hp
    subst hp
    exact hs
  · injection h with h2
    subst h2
    exact splitGo_valid e he.1 _ s hs

theorem processSegment_ok_shape (i : ℕ) (seg : List (String × JValue)) (inc : Bool)
    (pairs : List (String × Slice)) (h : processSegment i seg inc = .ok pairs) :
    ∃ sS eS sDt eDt details ps,
      parse_iso8601 sS = .ok sDt ∧ parse_iso8601 eS = .ok eDt ∧
      split_segment_by_day sDt eDt = .ok ps ∧
      pairs = ps.map (fun p =>
        (dayKey p.1, makeSlice i p (.str sS) (.str eS) details)) := by
  simp only [processSegment, exceptBind_ok, exceptPure_ok] at h
  rcases h with ⟨sJ, hsJ, sS, hsS, sDt, hsDt, eJ, heJ, eS, heS, eDt, heDt,
    details, hdet, ps, hps, hpairs⟩
  have h1 := asPyStr_ok sJ sS hsS
  have h2 := asPyStr_ok eJ eS heS
  subst h1
  subst h2
  exact ⟨sS, eS, sDt, eDt, details, ps, hsDt, heDt, hps, hpairs.symm⟩

theorem processSegment_mem (i : ℕ) (seg : List (String × JValue)) (inc : Bool)
    (pairs : List (String × Slice)) (h : processSegment i seg inc = .ok pairs) :
    ∀ q ∈ pairs, ∃ dt : PyDateTime, dt.Valid ∧
      q.1 = renderDate dt.year dt.month dt.day ∧
      dictGet q.2 "startTime" = some (.str (isoformat dt)) ∧
      sliceKey q.2 = isoformat dt := by
  obtain ⟨sS, eS, sDt, eDt, details, ps, hsDt, heDt, hps, hpairs⟩ :=
    processSegment_ok_shape i seg inc pairs h
  subst hpairs
  intro q hq
  simp only [List.mem_map] at hq
  obtain ⟨p, hpmem, rfl⟩ := hq
  have hv := split_ok_fst_valid sDt eDt (parse_iso8601_valid _ _ hsDt)
    (parse_iso8601_valid _ _ heDt) ps hps p hpmem
  exact ⟨p.1, hv, rfl, rfl, rfl⟩

theorem buildDays_ok (inc : Bool) :
    ∀ (isegs : List (ℕ × List (String × JValue))) (days0 days : List (String × List Slice)),
    buildDays inc isegs days0 = .ok days →
    (∀ x ∈ isegs, processSegment x.1 x.2 inc = .ok (segPairs inc x)) ∧
    days = addPairs days0 (isegs.flatMap (segPairs inc)) := by
  intro isegs
  induction isegs with
  | nil =>
    intro days0 days h
    simp only [buildDays] at h
    injection h with h2
    subst h2
    exact ⟨by simp, by simp [addPairs]⟩
  | cons x rest ih =>
    intro days0 days h
    obtain ⟨i, seg⟩ := x
    cases hp : processSegment i seg inc with
    | error e =>
      simp only [buildDays, hp, Bind.bind, Except.bind] at h
      cases h
    | ok pairs =>
      simp only [buildDays, hp, Bind.bind, Except.bind] at h
      obtain ⟨hall, hdays⟩ := ih _ _ h
      have hsp : segPairs inc (i, seg) = pairs := by simp [segPairs, hp]
      constructor
      · intro z hz
        rcases List.mem_cons.mp hz with rfl | hz2
        · rw [hsp]
          exact hp
        · exact hall z hz2
      · rw [hdays, List.flatMap_cons, addPairs_append, hsp]

theorem buildDays_error (inc : Bool) :
    ∀ (pre : List (ℕ × List (String × JValue))) (x : ℕ × List (String × JValue))
      (post : List (ℕ × List (String × JValue))) (days0 : List (String × List Slice))
      (err : PyErr),
    (∀ z ∈ pre, procOk inc z) →
    processSegment x.1 x.2 inc = .error err →
    buildDays inc (pre ++ x :: post) days0 = .error err := by
  intro pre
  induction pre with
  | nil =>
    intro x post days0 err _ hx
    obtain ⟨i, seg⟩ := x
    simp only [List.nil_append, buildDays, hx, Bind.bind, Except.bind]
  | cons z rest ih =>
    intro x post days0 err hall hx
    obtain ⟨zi, zseg⟩ := z
    obtain ⟨zpairs, hz⟩ := hall (zi, zseg) (by simp)
    simp only [List.cons_append, buildDays, hz, Bind.bind, Except.bind]
    exact ih x post _ err (fun w hw => hall w (by simp [hw])) hx

/-! ## Finalization lemmas -/

theorem daysLookup_map_sort (days : List (String × List Slice)) (k : String) :
    daysLookup (days.map (fun p => (p.1, List.insertionSort sliceLe p.2))) k
      = List.insertionSort sliceLe (daysLookup days k) := by
  induction days with
  | nil => simp [daysLookup_nil, List.insertionSort]
  | cons p rest ih =>
    obtain ⟨k0, l0⟩ := p
    simp only [List.map_cons]
    rw [daysLookup_cons, daysLookup_cons]
    by_cases h : k0 = k
    · simp [h]
    · simp [h, ih]

theorem finalizeDays_keys (days : List (String × List Slice)) :
    (finalizeDays days).map Prod.fst = List.insertionSort strLe (days.map Prod.fst) := by
  unfold finalizeDays
  simp only [List.map_map]
  rw [show (Prod.fst ∘ fun k => (k, daysLookup
      (List.map (fun p => (p.1, List.insertionSort sliceLe p.2)) days) k)) = id from rfl]
  rw [show ((fun p : String × List Slice => p.1)
      ∘ fun p : String × List Slice => (p.1, List.insertionSort sliceLe p.2))
      = Prod.fst from rfl]
  rw [List.map_id]

theorem finalizeDays_mem (days : List (String × List Slice)) (b : String × List Slice)
    (hb : b ∈ finalizeDays days) :
    b.1 ∈ days.map Prod.fst ∧
    b.2 = List.insertionSort sliceLe (daysLookup days b.1) := by
  unfold finalizeDays at hb
  simp only [List.mem_map] at hb
  obtain ⟨k, hk, rfl⟩ := hb
  have hperm := List.perm_insertionSort strLe
    ((days.map (fun p => (p.1, List.insertionSort sliceLe p.2))).map Prod.fst)
  have hk2 := hperm.mem_iff.mp hk
  constructor
  · revert hk2
    simp [List.map_map, Function.comp]
  · exact daysLookup_map_sort days k

/-- C9: the output document's `dayCount` is the number of day keys (which
are distinct), and `segmentCount` is the number of input segments,
independent of how many slices splitting produced. -/
theorem C9_output_counts (path : String) (segs : List (List (String × JValue)))
    (inc : Bool) (doc : OutputDoc) (h : mainOutput path segs inc = .ok doc) :
    doc.dayCount = doc.days.length ∧ (doc.days.map Prod.fst).Nodup ∧
    doc.segmentCount = segs.length := by
  unfold mainOutput parse_by_day parseWithIndices at h
  cases hb : buildDays inc segs.enum [] with
  | error e =>
    rw [hb] at h
    simp [Except.map] at h
  | ok days =>
    rw [hb] at h
    simp only [Except.map] at h
    injection h with h2
    subst h2
    refine ⟨rfl, ?_, rfl⟩
    obtain ⟨_, hdays⟩ := buildDays_ok inc segs.enum [] days hb
    have hnd : (days.map Prod.fst).Nodup := by
      rw [hdays]
      exact addPairs_nodup_keys _ [] (by simp)
    show ((finalizeDays days).map Prod.fst).Nodup
    rw [finalizeDays_keys]
    exact ((List.perm_insertionSort strLe (days.map Prod.fst)).nodup_iff).mpr hnd

/-- Witness for C9 at a concrete input: one visit segment. -/
theorem C9_witness :
    ∃ doc, mainOutput "timeline.json"
        [[("startTime", JValue.str "2024-01-01T10:00:00Z"),
          ("endTime", JValue.str "2024-01-01T11:00:00Z"),
          ("visit", JValue.obj [])]] false = .ok doc ∧
      (doc.dayCount = doc.days.length ∧ (doc.days.map Prod.fst).Nodup ∧
        doc.segmentCount = 1) :=
  ⟨_, rfl, C9_output_counts "timeline.json"
    [[("startTime", JValue.str "2024-01-01T10:00:00Z"),
      ("endTime", JValue.str "2024-01-01T11:00:00Z"),
      ("visit", JValue.obj [])]] false _ rfl⟩

/-- C10: in `parse_by_day`'s result, every day bucket is non-empty, and
every slice in the bucket keyed `d` has a start instant whose calendar
date renders (as `YYYY-MM-DD`) exactly to `d`: the slice's `startTime`
text is the `isoformat` of that instant. -/
theorem C10_bucket_invariant (segs : List (List (String × JValue))) (inc : Bool)
    (res : List (String × List Slice)) (h : parse_by_day segs inc = .ok res) :
    ∀ b ∈ res, b.2 ≠ [] ∧ ∀ sl ∈ b.2, ∃ dt : PyDateTime, dt.Valid ∧
      dictGet sl "startTime" = some (.str (isoformat dt)) ∧
      renderDate dt.year dt.month dt.day = b.1 := by
  unfold parse_by_day parseWithIndices at h
  cases hb : buildDays inc segs.enum [] with
  | error e =>
    rw [hb] at h
    simp [Except.map] at h
  | ok days =>
    rw [hb] at h
    simp only [Except.map] at h
    injection h with h2
    subst h2
    obtain ⟨hall, hdays⟩ := buildDays_ok inc segs.enum [] days hb
    subst hdays
    intro b hbmem
    obtain ⟨hk, hbucket⟩ := finalizeDays_mem _ b hbmem
    have hlook : daysLookup (addPairs [] (segs.enum.flatMap (segPairs inc))) b.1
        = ((segs.enum.flatMap (segPairs inc)).filter
            (fun q => q.1 == b.1)).map Prod.snd := by
      rw [addPairs_lookup]
      simp [daysLookup_nil]
    constructor
    · rw [hbucket]
      intro hempty
      have hperm := List.perm_insertionSort sliceLe
        (daysLookup (addPairs [] (segs.enum.flatMap (segPairs inc))) b.1)
      have hlen := hperm.length_eq
      rw [hempty] at hlen
      have hnil : daysLookup (addPairs [] (segs.enum.flatMap (segPairs inc))) b.1 = [] :=
        List.eq_nil_of_length_eq_zero hlen.symm
      have hkp : b.1 ∈ (segs.enum.flatMap (segPairs inc)).map Prod.fst := by
        have := (addPairs_keys_mem (segs.enum.flatMap (segPairs inc)) [] b.1).mp hk
        simpa using this
      obtain ⟨q, hqmem, hq1⟩ := List.mem_map.mp hkp
      have hqf : q ∈ (segs.enum.flatMap (segPairs inc)).filter (fun q => q.1 == b.1) :=
        List.mem_filter.mpr ⟨hqmem, by simp [hq1]⟩
      rw [hlook] at hnil
      have hfilnil := List.map_eq_nil_iff.mp hnil
      rw [hfilnil] at hqf
      cases hqf
    · intro sl hsl
      rw [hbucket] at hsl
      have hperm := List.perm_insertionSort sliceLe
        (daysLookup (addPairs [] (segs.enum.flatMap (segPairs inc))) b.1)
      have hsl2 := hperm.subset hsl
      rw [hlook] at hsl2
      obtain ⟨q, hqf, rfl⟩ := List.mem_map.mp hsl2
      have hqmem := (List.mem_filter.mp hqf).1
      have hqkey : q.1 = b.1 := by
        have := (List.mem_filter.mp hqf).2
        simpa using this
      obtain ⟨x, hx, hqx⟩ := List.mem_flatMap.mp hqmem
      have hproc := hall x hx
      obtain ⟨dt, hdtv, hq1, hst, hkey⟩ := processSegment_mem x.1 x.2 inc _ hproc q hqx
      exact ⟨dt, hdtv, hst, by rw [← hq1, hqkey]⟩

/-- Witness for C10 at a concrete input: one visit segment crossing midnight. -/
theorem C10_witness :
    ∃ res, parse_by_day
        [[("startTime", JValue.str "2024-01-01T23:30:00Z"),
          ("endTime", JValue.str "2024-01-02T00:30:00Z"),
          ("visit", JValue.obj [])]] false = .ok res ∧
      (∀ b ∈ res, b.2 ≠ [] ∧ ∀ sl ∈ b.2, ∃ dt : PyDateTime, dt.Valid ∧
        dictGet sl "startTime" = some (.str (isoformat dt)) ∧
        renderDate dt.year dt.month dt.day = b.1) :=
  ⟨_, rfl, C10_bucket_invariant
    [[("startTime", JValue.str "2024-01-01T23:30:00Z"),
      ("endTime", JValue.str "2024-01-02T00:30:00Z"),
      ("visit", JValue.obj [])]] false _ rfl⟩

/-! ## Date-rendering monotonicity -/

theorem nat_divmod_lt_iff (p n k : ℕ) (hp : 0 < p) :
    n < k ↔ (n / p < k / p ∨ (n / p = k / p ∧ n % p < k % p)) := by
  constructor
  · intro h
    by_cases hq : n / p < k / p
    · exact Or.inl hq
    · right
      have h1 : k / p ≤ n / p := le_of_not_lt hq
      have h2 : n / p ≤ k / p := Nat.div_le_div_right (le_of_lt h)
      have heq : n / p = k / p := le_antisymm h2 h1
      refine ⟨heq, ?_⟩
      have hn := Nat.div_add_mod n p
      have hk := Nat.div_add_mod k p
      rw [← heq] at hk
      omega
  · intro h
    rcases h with hq | ⟨heq, hr⟩
    · have hn := Nat.div_add_mod n p
      have hk := Nat.div_add_mod k p
      have hrn : n % p < p := Nat.mod_lt _ hp
      have hmul : p * (n / p) + p ≤ p * (k / p) := by
        have := Nat.mul_le_mul_left p (Nat.succ_le_of_lt hq)
        simpa [Nat.mul_succ] using this
      omega
    · have hn := Nat.div_add_mod n p
      have hk := Nat.div_add_mod k p
      rw [← heq] at hk
      omega

theorem digitChar_toNat (d : ℕ) (h : d < 10) : (Nat.digitChar d).toNat = 48 + d := by
  interval_cases d <;> rfl

theorem padChars_length (w n : ℕ) : (padChars w n).length = w := by
  induction w generalizing n with
  | zero => rfl
  | succ w ih => simp [padChars, ih]

theorem padChars_lt_iff (w : ℕ) : ∀ (n k : ℕ), n < 10 ^ w → k < 10 ^ w →
    ((charListLt (padChars w n) (padChars w k) = true) ↔ n < k) := by
  induction w with
  | zero =>
    intro n k hn hk
    simp only [pow_zero, Nat.lt_one_iff] at hn hk
    subst hn
    subst hk
    simp [padChars, charListLt]
  | succ w ih =>
    intro n k hn hk
    have hpow : (0:ℕ) < 10 ^ w := pow_pos (by norm_num) w
    have hd1 : n / 10 ^ w % 10 < 10 := Nat.mod_lt _ (by norm_num)
    have hd2 : k / 10 ^ w % 10 < 10 := Nat.mod_lt _ (by norm_num)
    have ha : n / 10 ^ w < 10 := by
      apply Nat.div_lt_of_lt_mul
      rw [← pow_succ]
      exact hn
    have hb : k / 10 ^ w < 10 := by
      apply Nat.div_lt_of_lt_mul
      rw [← pow_succ]
      exact hk
    have hmn : n % 10 ^ w < 10 ^ w := Nat.mod_lt _ hpow
    have hmk : k % 10 ^ w < 10 ^ w := Nat.mod_lt _ hpow
    simp only [padChars, charListLt]
    rw [digitChar_toNat _ hd1, digitChar_toNat _ hd2,
      Nat.mod_eq_of_lt ha, Nat.mod_eq_of_lt hb]
    by_cases h1 : n / 10 ^ w < k / 10 ^ w
    · rw [if_pos (by omega)]
      simp only [true_iff]
      exact (nat_divmod_lt_iff (10 ^ w) n k hpow).mpr (Or.inl h1)
    · by_cases h2 : k / 10 ^ w < n / 10 ^ w
      · rw [if_neg (by omega), if_pos (by omega)]
        constructor
        · intro hfalse
          cases hfalse
        · intro hlt
          exfalso
          rcases (nat_divmod_lt_iff (10 ^ w) n k hpow).mp hlt with hq | ⟨heq, _⟩
          · omega
          · omega
      · have heq : n / 10 ^ w = k / 10 ^ w := by omega
        rw [if_neg (by omega), if_neg (by omega), ih _ _ hmn hmk]
        constructor
        · intro hr
          exact (nat_divmod_lt_iff (10 ^ w) n k hpow).mpr (Or.inr ⟨heq, hr⟩)
        · intro hlt
          rcases (nat_divmod_lt_iff (10 ^ w) n k hpow).mp hlt with hq | ⟨_, hr⟩
          · omega
          · exact hr

theorem charListLt_append_eqlen (xs : List Char) :
    ∀ (xs' ys ys' : List Char), xs.length = xs'.length →
    charListLt (xs ++ ys) (xs' ++ ys')
      = (if charListLt xs xs' then true
         else if charListLt xs' xs then false
         else charListLt ys ys') := by
  induction xs with
  | nil =>
    intro xs' ys ys' h
    cases xs' with
    | nil => simp [charListLt]
    | cons c t => simp at h
  | cons c t ih =>
    intro xs' ys ys' h
    cases xs' with
    | nil => simp at h
    | cons c' t' =>
      simp only [List.cons_append, charListLt]
      by_cases h1 : c.toNat < c'.toNat
      · simp [h1]
      · by_cases h2 : c'.toNat < c.toNat
        · simp [h1, h2]
        · simp only [h1, h2, if_false]
          exact ih t' ys ys' (by simpa using h)

theorem padChars_lt_false (w n k : ℕ) (hn : n < 10 ^ w) (hk : k < 10 ^ w)
    (h : ¬ n < k) : charListLt (padChars w n) (padChars w k) = false := by
  cases hcl : charListLt (padChars w n) (padChars w k)
  · rfl
  · exact absurd ((padChars_lt_iff w n k hn hk).mp hcl) h

theorem charListLt_cons_same (c : Char) (a b : List Char) :
    charListLt (c :: a) (c :: b) = charListLt a b := by
  show (if c.toNat < c.toNat then true
        else if c.toNat < c.toNat then false else charListLt a b) = charListLt a b
  rw [if_neg (lt_irrefl _), if_neg (lt_irrefl _)]

theorem pad2_pair_lt_iff (m1 d1 m2 d2 : ℕ) (hm1 : m1 < 100) (hm2 : m2 < 100)
    (hd1v : d1 < 100) (hd2v : d2 < 100) :
    (charListLt (padChars 2 m1 ++ '-' :: padChars 2 d1)
                (padChars 2 m2 ++ '-' :: padChars 2 d2) = true)
      ↔ (m1 < m2 ∨ (m1 = m2 ∧ d1 < d2)) := by
  have h100 : (10:ℕ) ^ 2 = 100 := by norm_num
  rw [charListLt_append_eqlen _ _ _ _ (by rw [padChars_length, padChars_length])]
  by_cases hm : m1 < m2
  · rw [(padChars_lt_iff 2 m1 m2 (by omega) (by omega)).mpr hm]
    simp [hm]
  · rw [padChars_lt_false 2 m1 m2 (by omega) (by omega) hm]
    by_cases hm2' : m2 < m1
    · rw [(padChars_lt_iff 2 m2 m1 (by omega) (by omega)).mpr hm2']
      simp
      omega
    · rw [padChars_lt_false 2 m2 m1 (by omega) (by omega) hm2']
      simp only [Bool.false_eq_true, if_false]
      rw [charListLt_cons_same]
      rw [padChars_lt_iff 2 d1 d2 (by omega) (by omega)]
      omega

theorem renderDate_lt_iff (y1 m1 d1 y2 m2 d2 : ℤ)
    (v1 : ValidDate y1 m1 d1) (v2 : ValidDate y2 m2 d2) :
    (charListLt (renderDateChars y1 m1 d1) (renderDateChars y2 m2 d2) = true)
      ↔ tripleLt (y1, m1, d1) (y2, m2, d2) := by
  have hdim1 := (daysInMonth_bounds y1 m1).2
  have hdim2 := (daysInMonth_bounds y2 m2).2
  obtain ⟨hy1a, hy1b, hm1a, hm1b, hd1a, hd1b⟩ := v1
  obtain ⟨hy2a, hy2b, hm2a, hm2b, hd2a, hd2b⟩ := v2
  have h4 : (10:ℕ) ^ 4 = 10000 := by norm_num
  unfold renderDateChars
  rw [charListLt_append_eqlen _ _ _ _ (by rw [padChars_length, padChars_length])]
  by_cases hy : y1.toNat < y2.toNat
  · rw [(padChars_lt_iff 4 y1.toNat y2.toNat (by omega) (by omega)).mpr hy]
    constructor
    · intro _
      unfold tripleLt
      left
      dsimp only
      omega
    · intro _
      simp
  · rw [padChars_lt_false 4 y1.toNat y2.toNat (by omega) (by omega) hy]
    by_cases hy2 : y2.toNat < y1.toNat
    · rw [(padChars_lt_iff 4 y2.toNat y1.toNat (by omega) (by omega)).mpr hy2]
      constructor
      · intro hfalse
        simp at hfalse
      · intro hlt
        exfalso
        unfold tripleLt at hlt
        dsimp only at hlt
        omega
    · have hyeq : y1 = y2 := by omega
      subst hyeq
      rw [padChars_lt_false 4 y1.toNat y1.toNat (by omega) (by omega) (by omega)]
      simp only [Bool.false_eq_true, if_false]
      rw [charListLt_cons_same]
      rw [pad2_pair_lt_iff m1.toNat d1.toNat m2.toNat d2.toNat
        (by omega) (by omega) (by omega) (by omega)]
      unfold tripleLt
      dsimp only
      omega

theorem exists_preimage_list {β : Type} (P : β → Prop) (f : β → String) :
    ∀ (l : List String), (∀ a ∈ l, ∃ b, P b ∧ a = f b) →
    ∃ bs : List β, l = bs.map f ∧ ∀ b ∈ bs, P b := by
  intro l
  induction l with
  | nil => exact fun _ => ⟨[], rfl, by simp⟩
  | cons a t ih =>
    intro h
    obtain ⟨b, hb, hab⟩ := h a (by simp)
    obtain ⟨bs, hbs, hPs⟩ := ih (fun x hx => h x (by simp [hx]))
    refine ⟨b :: bs, by simp [hab, hbs], ?_⟩
    intro c hc
    rcases List.mem_cons.mp hc with rfl | hc2
    · exact hb
    · exact hPs c hc2

/-- C3: in `parse_by_day`'s result the day-bucket keys are in strictly
ascending order both as strings and as the calendar dates they render
(each key is the `YYYY-MM-DD` rendering of a valid date, and those dates
strictly ascend), and within every bucket the slices are ascending by
their rendered start-time text under code-point lexicographic comparison
(the sort key is the `startTime` string, not a parsed instant). -/
theorem C3_result_ordering (segs : List (List (String × JValue))) (inc : Bool)
    (res : List (String × List Slice)) (h : parse_by_day segs inc = .ok res) :
    List.Pairwise (fun a b => charListLt a.data b.data = true) (res.map Prod.fst) ∧
    (∃ ds : List (ℤ × ℤ × ℤ), res.map Prod.fst
        = ds.map (fun t => renderDate t.1 t.2.1 t.2.2) ∧
      List.Pairwise tripleLt ds ∧ ∀ t ∈ ds, ValidDate t.1 t.2.1 t.2.2) ∧
    (∀ b ∈ res, List.Pairwise sliceLe b.2) := by
  unfold parse_by_day parseWithIndices at h
  cases hb : buildDays inc segs.enum [] with
  | error e =>
    rw [hb] at h
    simp [Except.map] at h
  | ok days =>
    rw [hb] at h
    simp only [Except.map] at h
    injection h with h2
    subst h2
    obtain ⟨hall, hdays⟩ := buildDays_ok inc segs.enum [] days hb
    subst hdays
    have hresk := finalizeDays_keys (addPairs [] (segs.enum.flatMap (segPairs inc)))
    have hnd : ((addPairs [] (segs.enum.flatMap (segPairs inc))).map Prod.fst).Nodup :=
      addPairs_nodup_keys _ [] (by simp)
    have hsorted : List.Sorted strLe
        ((finalizeDays (addPairs [] (segs.enum.flatMap (segPairs inc)))).map Prod.fst) := by
      rw [hresk]
      exact List.sorted_insertionSort strLe _
    have hnodup : ((finalizeDays (addPairs [] (segs.enum.flatMap (segPairs inc)))).map
        Prod.fst).Nodup := by
      rw [hresk]
      exact ((List.perm_insertionSort strLe _).nodup_iff).mpr hnd
    have hkeyren : ∀ k ∈ (finalizeDays (addPairs [] (segs.enum.flatMap
        (segPairs inc)))).map Prod.fst,
        ∃ t : ℤ × ℤ × ℤ, ValidDate t.1 t.2.1 t.2.2
          ∧ k = renderDate t.1 t.2.1 t.2.2 := by
      intro k hk
      rw [hresk] at hk
      have hk2 := (List.perm_insertionSort strLe _).subset hk
      have hk3 : k ∈ (segs.enum.flatMap (segPairs inc)).map Prod.fst := by
        have := (addPairs_keys_mem (segs.enum.flatMap (segPairs inc)) [] k).mp hk2
        simpa using this
      obtain ⟨q, hqmem, hq1⟩ := List.mem_map.mp hk3
      obtain ⟨x, hx, hqx⟩ := List.mem_flatMap.mp hqmem
      obtain ⟨dt, hdtv, hqd, _, _⟩ := processSegment_mem x.1 x.2 inc _ (hall x hx) q hqx
      exact ⟨(dt.year, dt.month, dt.day), hdtv.1, by rw [← hq1, hqd]⟩
    have hstrict : List.Pairwise (fun a b => charListLt a.data b.data = true)
        ((finalizeDays (addPairs [] (segs.enum.flatMap (segPairs inc)))).map Prod.fst) :=
      (hsorted.and hnodup).imp (fun hx => strLt_of_le_ne _ _ hx.1 hx.2)
    refine ⟨hstrict, ?_, ?_⟩
    · obtain ⟨ds, hds, hdsP⟩ := exists_preimage_list
        (fun t : ℤ × ℤ × ℤ => ValidDate t.1 t.2.1 t.2.2)
        (fun t => renderDate t.1 t.2.1 t.2.2) _ hkeyren
      refine ⟨ds, hds, ?_, hdsP⟩
      rw [hds, List.pairwise_map] at hstrict
      refine hstrict.imp_of_mem ?_
      intro t1 t2 h1 h2 hR
      have hv1 := hdsP t1 h1
      have hv2 := hdsP t2 h2
      exact (renderDate_lt_iff t1.1 t1.2.1 t1.2.2 t2.1 t2.2.1 t2.2.2 hv1 hv2).mp hR
    · intro b hbmem
      obtain ⟨_, hbucket⟩ := finalizeDays_mem _ b hbmem
      rw [hbucket]
      exact List.sorted_insertionSort sliceLe _

/-! ## Error-path lemmas and C8 -/

theorem processSegment_missing_start (i : ℕ) (seg : List (String × JValue)) (inc : Bool)
    (h : dictGet seg "startTime" = none) :
    processSegment i seg inc = .error (.keyError "startTime") := by
  simp [processSegment, dictGetItem, h, Bind.bind, Except.bind]

theorem processSegment_missing_end (i : ℕ) (seg : List (String × JValue)) (inc : Bool)
    (hs : startSideOK seg) (h : dictGet seg "endTime" = none) :
    processSegment i seg inc = .error (.keyError "endTime") := by
  obtain ⟨v, s, t, hv, hvs, hst⟩ := hs
  simp [processSegment, dictGetItem, h, hv, hvs, hst, Bind.bind, Except.bind]

theorem buildDays_ok_of_all (inc : Bool) :
    ∀ (isegs : List (ℕ × List (String × JValue))) (days0 : List (String × List Slice)),
    (∀ x ∈ isegs, procOk inc x) →
    buildDays inc isegs days0 = .ok (addPairs days0 (isegs.flatMap (segPairs inc))) := by
  intro isegs
  induction isegs with
  | nil =>
    intro days0 _
    simp [buildDays, addPairs]
  | cons x rest ih =>
    intro days0 hall
    obtain ⟨i, seg⟩ := x
    obtain ⟨pairs, hp⟩ := hall (i, seg) (by simp)
    have hsp : segPairs inc (i, seg) = pairs := by simp [segPairs, hp]
    simp only [buildDays, hp, Bind.bind, Except.bind, List.flatMap_cons, addPairs_append,
      hsp]
    exact ih _ (fun w hw => hall w (by simp [hw]))

/-- C8 (as written, refuted in one conjunct): the raised `KeyError` names
only the missing field, not the failing segment: a run whose only segment
lacks `startTime` and a run whose SECOND segment (after a well-formed
first one) lacks `startTime` abort with the identical error value, so the
error does not identify which segment failed. -/
theorem C8_counterexample :
    parse_by_day [[("endTime", JValue.str "x")]] false
      = .error (.keyError "startTime") ∧
    parse_by_day [[("startTime", JValue.str "2024-01-01T10:00:00Z"),
                   ("endTime", JValue.str "2024-01-01T11:00:00Z"),
                   ("visit", JValue.obj [])],
                  [("endTime", JValue.str "x")]] false
      = .error (.keyError "startTime") :=
  ⟨rfl, rfl⟩

/-- C8 (amended): if an indexed segment lacks `startTime`, or lacks
`endTime` while its `startTime` side is retrievable and parseable, and
every earlier segment processes without raising, then the run aborts
with the `KeyError` (the spec's `MissingFieldError`) naming that missing
field, and produces no day mapping at all (the result is only the
error). -/
theorem C8_missing_field (inc : Bool) (pre post : List (ℕ × List (String × JValue)))
    (i : ℕ) (seg : List (String × JValue))
    (hearlier : ∀ z ∈ pre, procOk inc z)
    (hmiss : dictGet seg "startTime" = none ∨
      (startSideOK seg ∧ dictGet seg "endTime" = none)) :
    ∃ k, (k = "startTime" ∨ k = "endTime") ∧ dictGet seg k = none ∧
      parseWithIndices (pre ++ (i, seg) :: post) inc = .error (.keyError k) := by
  rcases hmiss with hs | ⟨hok, he⟩
  · refine ⟨"startTime", Or.inl rfl, hs, ?_⟩
    unfold parseWithIndices
    rw [buildDays_error inc pre (i, seg) post [] (.keyError "startTime") hearlier
      (processSegment_missing_start i seg inc hs)]
    rfl
  · refine ⟨"endTime", Or.inr rfl, he, ?_⟩
    unfold parseWithIndices
    rw [buildDays_error inc pre (i, seg) post [] (.keyError "endTime") hearlier
      (processSegment_missing_end i seg inc hok he)]
    rfl

/-- Witness for C8: the second segment of a two-segment input lacks
`startTime`; the run aborts with `KeyError("startTime")`. -/
theorem C8_witness :
    (∃ k, (k = "startTime" ∨ k = "endTime") ∧
      dictGet [("endTime", JValue.str "x")] k = none ∧
      parseWithIndices
        ([((0:ℕ), [("startTime", JValue.str "2024-01-01T10:00:00Z"),
            ("endTime", JValue.str "2024-01-01T11:00:00Z"),
            ("visit", JValue.obj [])])]
          ++ ((1:ℕ), [("endTime", JValue.str "x")]) :: []) false
        = .error (.keyError k)) :=
  C8_missing_field false
    [((0:ℕ), [("startTime", JValue.str "2024-01-01T10:00:00Z"),
      ("endTime", JValue.str "2024-01-01T11:00:00Z"),
      ("visit", JValue.obj [])])]
    [] 1 [("endTime", JValue.str "x")]
    (by
      intro z hz
      simp only [List.mem_singleton] at hz
      subst hz
      exact ⟨_, rfl⟩)
    (Or.inl rfl)

/-! ## Order-independence (C4) -/

theorem slice_strict_sorted (l : List Slice) (hs : List.Sorted sliceLe l)
    (hn : (l.map sliceKey).Nodup) :
    List.Pairwise (fun a b => charListLt (sliceKey a).data (sliceKey b).data = true) l := by
  have hne : List.Pairwise (fun a b => sliceKey a ≠ sliceKey b) l :=
    List.pairwise_map.mp hn
  exact (hs.and hne).imp (fun hx => strLt_of_le_ne _ _ hx.1 hx.2)

theorem sorted_buckets_eq (X Y : List Slice) (hperm : X.Perm Y)
    (hnodup : (Y.map sliceKey).Nodup) :
    List.insertionSort sliceLe X = List.insertionSort sliceLe Y := by
  have p1 : (List.insertionSort sliceLe X).Perm (List.insertionSort sliceLe Y) :=
    (List.perm_insertionSort _ X).trans (hperm.trans (List.perm_insertionSort _ Y).symm)
  have hnodX : ((List.insertionSort sliceLe X).map sliceKey).Nodup := by
    refine ((p1.trans (List.perm_insertionSort _ Y)).map sliceKey).nodup_iff.mpr hnodup
  have hnodY : ((List.insertionSort sliceLe Y).map sliceKey).Nodup :=
    ((List.perm_insertionSort _ Y).map sliceKey).nodup_iff.mpr hnodup
  haveI : IsAntisymm Slice (fun a b => charListLt (sliceKey a).data (sliceKey b).data = true) :=
    ⟨fun a b h1 h2 => absurd (charListLt_asymm _ _ h1) (by simp [h2])⟩
  exact List.eq_of_perm_of_sorted p1
    (slice_strict_sorted _ (List.sorted_insertionSort sliceLe X) hnodX)
    (slice_strict_sorted _ (List.sorted_insertionSort sliceLe Y) hnodY)

theorem finalizeDays_eq_form (days : List (String × List Slice)) :
    finalizeDays days = (List.insertionSort strLe (days.map Prod.fst)).map
      (fun k => (k, List.insertionSort sliceLe (daysLookup days k))) := by
  unfold finalizeDays
  dsimp only
  rw [show (days.map (fun p => (p.1, List.insertionSort sliceLe p.2))).map (fun p => p.1)
      = days.map Prod.fst from by rw [List.map_map]; rfl]
  apply List.map_congr_left
  intro k _
  rw [daysLookup_map_sort]

theorem finalizeDays_perm_eq (P P' : List (String × Slice)) (hperm : P'.Perm P)
    (hdis : ∀ k : String,
      (((P.filter (fun q => q.1 == k)).map Prod.snd).map sliceKey).Nodup) :
    finalizeDays (addPairs [] P') = finalizeDays (addPairs [] P) := by
  have hnd' : ((addPairs [] P').map Prod.fst).Nodup := addPairs_nodup_keys _ [] (by simp)
  have hnd : ((addPairs [] P).map Prod.fst).Nodup := addPairs_nodup_keys _ [] (by simp)
  have hkeysperm : ((addPairs [] P').map Prod.fst).Perm ((addPairs [] P).map Prod.fst) := by
    rw [List.perm_ext_iff_of_nodup hnd' hnd]
    intro a
    rw [addPairs_keys_mem, addPairs_keys_mem]
    simp [(hperm.map Prod.fst).mem_iff]
  have hsortkeys : List.insertionSort strLe ((addPairs [] P').map Prod.fst)
      = List.insertionSort strLe ((addPairs [] P).map Prod.fst) := by
    refine List.eq_of_perm_of_sorted ?_ (List.sorted_insertionSort _ _)
      (List.sorted_insertionSort _ _)
    exact (List.perm_insertionSort _ _).trans
      (hkeysperm.trans (List.perm_insertionSort _ _).symm)
  rw [finalizeDays_eq_form, finalizeDays_eq_form, hsortkeys]
  apply List.map_congr_left
  intro k _
  have hl' : daysLookup (addPairs [] P') k
      = (P'.filter (fun q => q.1 == k)).map Prod.snd := by
    rw [addPairs_lookup]
    simp [daysLookup_nil]
  have hl : daysLookup (addPairs [] P) k
      = (P.filter (fun q => q.1 == k)).map Prod.snd := by
    rw [addPairs_lookup]
    simp [daysLookup_nil]
  rw [hl', hl]
  have hfperm : ((P'.filter (fun q => q.1 == k)).map Prod.snd).Perm
      ((P.filter (fun q => q.1 == k)).map Prod.snd) :=
    (hperm.filter _).map _
  rw [sorted_buckets_eq _ _ hfperm (hdis k)]

/-- C4 (amended): processing the segments in any order (any permutation
of the index-tagged input, each segment keeping its original index)
yields the same final output as input order, PROVIDED no two slices of a
bucket share the same rendered start-time text; the bucket sort is
stable, so ties keep processing order and can differ between orders. -/
theorem C4_order_independence (segs : List (List (String × JValue))) (inc : Bool)
    (p : List (ℕ × List (String × JValue))) (hperm : p.Perm segs.enum)
    (res : List (String × List Slice)) (hok : parse_by_day segs inc = .ok res)
    (hdis : ∀ b ∈ res, (b.2.map sliceKey).Nodup) :
    parseWithIndices p inc = .ok res := by
  unfold parse_by_day parseWithIndices at hok
  cases hb : buildDays inc segs.enum [] with
  | error e =>
    rw [hb] at hok
    simp [Except.map] at hok
  | ok days =>
    rw [hb] at hok
    simp only [Except.map] at hok
    injection hok with h2
    obtain ⟨hall, hdays⟩ := buildDays_ok inc segs.enum [] days hb
    subst hdays
    have hallp : ∀ x ∈ p, procOk inc x :=
      fun x hx => ⟨_, hall x (hperm.subset hx)⟩
    unfold parseWithIndices
    rw [buildDays_ok_of_all inc p [] hallp]
    simp only [Except.map]
    rw [← h2]
    congr 1
    have hPperm := List.Perm.flatMap_right (segPairs inc) hperm
    refine finalizeDays_perm_eq _ _ hPperm ?_
    intro k
    by_cases hk : k ∈ (addPairs [] (segs.enum.flatMap (segPairs inc))).map Prod.fst
    · have hkk : k ∈ (finalizeDays (addPairs [] (segs.enum.flatMap
          (segPairs inc)))).map Prod.fst := by
        rw [finalizeDays_keys]
        exact ((List.perm_insertionSort strLe _).mem_iff).mpr hk
      obtain ⟨b, hbmem, hb1⟩ := List.mem_map.mp hkk
      have hbd := hdis b (h2 ▸ hbmem)
      have hb2 := (finalizeDays_mem _ b hbmem).2
      rw [hb2] at hbd
      have hlperm := (List.perm_insertionSort sliceLe
        (daysLookup (addPairs [] (segs.enum.flatMap (segPairs inc))) b.1)).map sliceKey
      have hnod : ((daysLookup (addPairs [] (segs.enum.flatMap (segPairs inc)))
          b.1).map sliceKey).Nodup := hlperm.nodup_iff.mp hbd
      rw [addPairs_lookup] at hnod
      simp only [daysLookup_nil, List.nil_append] at hnod
      rw [← hb1]
      exact hnod
    · have hknp : k ∉ (segs.enum.flatMap (segPairs inc)).map Prod.fst := by
        intro hc
        exact hk ((addPairs_keys_mem _ [] k).mpr (Or.inr hc))
      have hfe : (segs.enum.flatMap (segPairs inc)).filter (fun q => q.1 == k) = [] := by
        rw [List.filter_eq_nil_iff]
        intro q hq
        intro hqk
        exact hknp (List.mem_map.mpr ⟨q, hq, by simpa using hqk⟩)
      rw [hfe]
      simp

/-- C4 (as written, refuted): with two segments sharing the same
start-time text, processing order changes the output even though
`segmentIndex` is taken from original positions: the bucket sort is
stable, so the tied slices keep processing order.  The permuted run
lists the activity slice first; the input-order run lists the visit
slice first. -/
theorem C4_counterexample :
    ([((1:ℕ), [("startTime", JValue.str "2024-01-01T10:00:00Z"),
        ("endTime", JValue.str "2024-01-01T11:00:00Z"),
        ("activity", JValue.obj [])]),
      ((0:ℕ), [("startTime", JValue.str "2024-01-01T10:00:00Z"),
        ("endTime", JValue.str "2024-01-01T11:00:00Z"),
        ("visit", JValue.obj [])])]).Perm
      (([[("startTime", JValue.str "2024-01-01T10:00:00Z"),
          ("endTime", JValue.str "2024-01-01T11:00:00Z"),
          ("visit", JValue.obj [])],
         [("startTime", JValue.str "2024-01-01T10:00:00Z"),
          ("endTime", JValue.str "2024-01-01T11:00:00Z"),
          ("activity", JValue.obj [])]]).enum) ∧
    parseWithIndices
        [((1:ℕ), [("startTime", JValue.str "2024-01-01T10:00:00Z"),
          ("endTime", JValue.str "2024-01-01T11:00:00Z"),
          ("activity", JValue.obj [])]),
         ((0:ℕ), [("startTime", JValue.str "2024-01-01T10:00:00Z"),
          ("endTime", JValue.str "2024-01-01T11:00:00Z"),
          ("visit", JValue.obj [])])] false
      ≠ parse_by_day
        [[("startTime", JValue.str "2024-01-01T10:00:00Z"),
          ("endTime", JValue.str "2024-01-01T11:00:00Z"),
          ("visit", JValue.obj [])],
         [("startTime", JValue.str "2024-01-01T10:00:00Z"),
          ("endTime", JValue.str "2024-01-01T11:00:00Z"),
          ("activity", JValue.obj [])]] false := by
  constructor
  · exact List.Perm.swap _ _ _
  · intro heq
    have h2 := congrArg (fun r : Except PyErr (List (String × List Slice)) =>
      match r with
      | Except.ok ((_, sl :: _) :: _) => dictGet sl "segmentType"
      | _ => none) heq
    have h3 : (some (JValue.str "activity") : Option JValue)
        = some (JValue.str "visit") := h2
    injection h3 with h4
    injection h4 with h5
    exact absurd h5 (by decide)

/-- Witness for C4: two segments with distinct start-time texts; the
swapped processing order yields the identical output. -/
theorem C4_witness :
    ∃ res, parse_by_day
        [[("startTime", JValue.str "2024-01-01T10:00:00Z"),
          ("endTime", JValue.str "2024-01-01T11:00:00Z"),
          ("visit", JValue.obj [])],
         [("startTime", JValue.str "2024-01-01T12:00:00Z"),
          ("endTime", JValue.str "2024-01-01T13:00:00Z"),
          ("activity", JValue.obj [])]] false = .ok res ∧
      (∀ b ∈ res, (b.2.map sliceKey).Nodup) ∧
      parseWithIndices
        [((1:ℕ), [("startTime", JValue.str "2024-01-01T12:00:00Z"),
          ("endTime", JValue.str "2024-01-01T13:00:00Z"),
          ("activity", JValue.obj [])]),
         ((0:ℕ), [("startTime", JValue.str "2024-01-01T10:00:00Z"),
          ("endTime", JValue.str "2024-01-01T11:00:00Z"),
          ("visit", JValue.obj [])])] false = .ok res :=
  ⟨_, rfl, by decide, C4_order_independence
    [[("startTime", JValue.str "2024-01-01T10:00:00Z"),
      ("endTime", JValue.str "2024-01-01T11:00:00Z"),
      ("visit", JValue.obj [])],
     [("startTime", JValue.str "2024-01-01T12:00:00Z"),
      ("endTime", JValue.str "2024-01-01T13:00:00Z"),
      ("activity", JValue.obj [])]] false
    [((1:ℕ), [("startTime", JValue.str "2024-01-01T12:00:00Z"),
      ("endTime", JValue.str "2024-01-01T13:00:00Z"),
      ("activity", JValue.obj [])]),
     ((0:ℕ), [("startTime", JValue.str "2024-01-01T10:00:00Z"),
      ("endTime", JValue.str "2024-01-01T11:00:00Z"),
      ("visit", JValue.obj [])])]
    (List.Perm.swap _ _ _) _ rfl (by decide)⟩

/-- Witness for C3 at a concrete input: a segment crossing midnight
produces two day buckets in ascending date order. -/
theorem C3_witness :
    ∃ res, parse_by_day
        [[("startTime", JValue.str "2024-01-01T23:30:00Z"),
          ("endTime", JValue.str "2024-01-02T00:30:00Z"),
          ("visit", JValue.obj [])]] false = .ok res ∧
      (List.Pairwise (fun a b => charListLt a.data b.data = true) (res.map Prod.fst) ∧
      (∃ ds : List (ℤ × ℤ × ℤ), res.map Prod.fst
          = ds.map (fun t => renderDate t.1 t.2.1 t.2.2) ∧
        List.Pairwise tripleLt ds ∧ ∀ t ∈ ds, ValidDate t.1 t.2.1 t.2.2) ∧
      (∀ b ∈ res, List.Pairwise sliceLe b.2)) :=
  ⟨_, rfl, C3_result_ordering
    [[("startTime", JValue.str "2024-01-01T23:30:00Z"),
      ("endTime", JValue.str "2024-01-02T00:30:00Z"),
      ("visit", JValue.obj [])]] false _ rfl⟩
